import Mathlib

set_option maxHeartbeats 1000000
set_option maxRecDepth 8000

/-!
Verification of the LocalCssSense indexing engine and parsers.

The TypeScript sources are embedded shallowly:
* JavaScript `Map` and `Set` become insertion-ordered association lists
  (`Map.set` on an existing key updates the value in place keeping the
  original position; `Set.add` appends when absent).
* The filesystem becomes an association list from absolute path to file
  content and modification time; `fs` reads never fail when the file exists.
* Functions that can throw return `Except String`.
* Strings that are scanned character by character are `List Char`.
-/

/-! ## JavaScript Map / Set model -/

def mGet {α β : Type} [DecidableEq α] : List (α × β) → α → Option β
  | [], _ => none
  | (a, b) :: t, k => if a = k then some b else mGet t k

def mSet {α β : Type} [DecidableEq α] : List (α × β) → α → β → List (α × β)
  | [], k, v => [(k, v)]
  | (a, b) :: t, k, v => if a = k then (a, v) :: t else (a, b) :: mSet t k v

/-- `Map.delete`.  A JavaScript map holds each key at most once, so
removing every entry with the key is the same operation and keeps the
model total on arbitrary association lists. -/
def mDel {α β : Type} [DecidableEq α] : List (α × β) → α → List (α × β)
  | [], _ => []
  | (a, b) :: t, k => if a = k then mDel t k else (a, b) :: mDel t k

def mKeys {α β : Type} (m : List (α × β)) : List α := m.map Prod.fst

def sAdd (s : List String) (x : String) : List String :=
  if x ∈ s then s else s ++ [x]

def sDel (s : List String) (x : String) : List String :=
  s.filter (fun y => y != x)

/-! ## Filesystem model -/

structure FSFile where
  content : List Char
  mtime : Nat
deriving DecidableEq

abbrev FS := List (String × FSFile)

def fsExists (fs : FS) (p : String) : Bool := (mGet fs p).isSome

/-- Does the second list start with the first? -/
def leadsWith : List Char → List Char → Bool
  | [], _ => true
  | _ :: _, [] => false
  | a :: s2, b :: t => a == b && leadsWith s2 t

/-- JavaScript `String.prototype.startsWith`. -/
def strStarts (s pre : String) : Bool := leadsWith pre.data s.data

def hasInfixL (sub : List Char) : List Char → Bool
  | [] => leadsWith sub []
  | c :: t => leadsWith sub (c :: t) || hasInfixL sub t

/-- JavaScript `String.prototype.includes`. -/
def isSubstr (sub s : String) : Bool := hasInfixL sub.data s.data

/-- Node `path.isAbsolute` on the POSIX platform. -/
def isAbsolutePosix (p : String) : Bool := strStarts p "/"

/-! ## Character classes of the regexes in `cssParser.ts`

`CLASS_PATTERN = \.([a-zA-Z_-][a-zA-Z0-9_-]*)\s*\{`.  JavaScript `\s` also
matches some non-ASCII space characters; the model covers the ASCII ones,
which is the alphabet every theorem below uses. -/

def braceL : Char := Char.ofNat 123

def braceR : Char := Char.ofNat 125

def isIdentStart (c : Char) : Bool := c.isAlpha || c == '_' || c == '-'

def isIdentChar (c : Char) : Bool := c.isAlphanum || c == '_' || c == '-'

def isJsSpace (c : Char) : Bool :=
  c == ' ' || c == '\t' || c == '\n' || c == '\r' || c == '\x0b' || c == '\x0c'

/-- JavaScript `String.prototype.trim`. -/
def trimL (l : List Char) : List Char :=
  ((l.dropWhile isJsSpace).reverse.dropWhile isJsSpace).reverse

def notNl (c : Char) : Bool := c != '\n'

/-- `l.length` bound used for the termination of the scanners below. -/
theorem dropWhile_len_le {p : Char → Bool} (l : List Char) :
    (l.dropWhile p).length ≤ l.length := by
  induction l with
  | nil => simp [List.dropWhile]
  | cons c t ih =>
    by_cases h : p c
    · simp [List.dropWhile, h]; omega
    · simp [List.dropWhile, h]

/-- JavaScript `String.prototype.split` with a single-character separator;
`cur` accumulates the current piece in reverse. -/
def splitOnAux (sep : Char) : List Char → List Char → List (List Char)
  | [], cur => [cur.reverse]
  | c :: t, cur =>
      if c = sep then cur.reverse :: splitOnAux sep t []
      else splitOnAux sep t (c :: cur)

def splitOn (sep : Char) (l : List Char) : List (List Char) := splitOnAux sep l []

/-! ## `CSSParser.removeComments` -/

def hasCloseCmt : List Char → Bool
  | [] => false
  | [_] => false
  | a :: b :: t => if a = '*' ∧ b = '/' then true else hasCloseCmt (b :: t)

def afterCloseCmt : List Char → List Char
  | [] => []
  | [_] => []
  | a :: b :: t => if a = '*' ∧ b = '/' then t else afterCloseCmt (b :: t)

theorem afterCloseCmt_len_le : ∀ l : List Char, (afterCloseCmt l).length ≤ l.length
  | [] => by simp [afterCloseCmt]
  | [c] => by simp [afterCloseCmt]
  | a :: b :: t => by
    rw [afterCloseCmt]
    split
    · simp only [List.length_cons]; omega
    · have h := afterCloseCmt_len_le (b :: t)
      simp at h ⊢
      omega

/-- The global replace of the lazy pattern for block comments: each
match begins at a comment opener and ends at the first close afterwards;
an unclosed opener does not match and is kept verbatim.  The `true` mode
is the walk from the opener to its close (the span being deleted). -/
def sbcAux : Bool → List Char → List Char
  | true, [] => []
  | true, [_] => []
  | true, a :: b :: t => if a = '*' ∧ b = '/' then sbcAux false t else sbcAux true (b :: t)
  | false, [] => []
  | false, [c] => [c]
  | false, a :: b :: t =>
      if a = '/' ∧ b = '*' then
        (if hasCloseCmt t then sbcAux true t else a :: b :: t)
      else a :: sbcAux false (b :: t)

def sbc (l : List Char) : List Char := sbcAux false l

/-- The multiline global replace of `//.*$`: a line comment is removed up
to the end of its line; JavaScript `.` does not match a carriage return,
so a candidate start whose line tail contains one fails and scanning
resumes one character later.  The `true` mode is the deleted span: skip
until the newline, which itself is kept. -/
def rlcAux : Bool → List Char → List Char
  | true, [] => []
  | true, c :: t => if c = '\n' then c :: rlcAux false t else rlcAux true t
  | false, [] => []
  | false, [c] => [c]
  | false, a :: b :: t =>
      if a = '/' ∧ b = '/' then
        (if '\r' ∈ t.takeWhile notNl then a :: rlcAux false (b :: t)
         else rlcAux true t)
      else a :: rlcAux false (b :: t)

def rlcAll (l : List Char) : List Char := rlcAux false l

def removeComments (content : List Char) : List Char := rlcAll (sbc content)

/-! ## `CSSParser.findClassMatches` and helpers -/

/-- One attempt of `CLASS_PATTERN` anchored at the head of the list; returns
the captured class name and the length of the whole match (incl. the brace). -/
def matchClassAt : List Char → Option (String × Nat)
  | a :: c :: cs =>
      if a = '.' ∧ isIdentStart c then
        let identRest := cs.takeWhile isIdentChar
        let after := cs.dropWhile isIdentChar
        let ws := after.takeWhile isJsSpace
        match after.dropWhile isJsSpace with
        | d :: _ =>
            if d = braceL then some ((c :: identRest).asString, 1 + (1 + identRest.length) + ws.length + 1)
            else none
        | [] => none
      else none
  | _ => none

theorem matchClassAt_len_pos {l : List Char} {nm : String} {len : Nat}
    (h : matchClassAt l = some (nm, len)) : 1 ≤ len := by
  match l with
  | [] => simp [matchClassAt] at h
  | [c] => simp [matchClassAt] at h
  | a :: c :: cs =>
    rw [matchClassAt] at h
    split at h
    · dsimp only at h
      split at h
      · split at h
        · simp at h; omega
        · simp at h
      · simp at h
    · simp at h

/-- Successive `exec` calls of the global regex: scan left to right, resume
after the end of each match (`lastIndex` semantics).  Yields
`(className, matchStart, matchLength)`.  The fuel argument only funds the
recursion; `l.length` always suffices because every step consumes at least
one character. -/
def scanClassesF : Nat → List Char → Nat → List (String × Nat × Nat)
  | 0, _, _ => []
  | _ + 1, [], _ => []
  | fuel + 1, c :: t, i =>
      match matchClassAt (c :: t) with
      | some (nm, len) => (nm, i, len) :: scanClassesF fuel (t.drop (len - 1)) (i + len)
      | none => scanClassesF fuel t (i + 1)

def scanClasses (l : List Char) (i : Nat) : List (String × Nat × Nat) :=
  scanClassesF l.length l i

/-- The line-number loop of `findClassMatches`: first line whose cumulative
character count (plus the newline) exceeds the match start. -/
def lnAux (ms : Nat) : List (List Char) → Nat → Nat → Nat
  | [], _, _ => 1
  | ln :: rest, cc, i =>
      if cc + ln.length + 1 > ms then i + 1 else lnAux ms rest (cc + ln.length + 1) (i + 1)

def lineNumberOfIndex (content : List Char) (ms : Nat) : Nat :=
  lnAux ms (splitOn '\n' content) 0 0

/-- The brace-matching loop of `extractClassDefinition`: depth counting that
ignores braces inside quoted strings (with backslash escapes).  Returns the
absolute position of the matching closing brace. -/
def braceScan : List Char → Char → Int → Bool → Char → Nat → Option Nat
  | [], _, _, _, _, _ => none
  | c :: t, prev, depth, inString, sc, pos =>
      if !inString && (c == '"' || c == '\x27') then braceScan t c depth true c (pos + 1)
      else if inString && c == sc && prev != '\\' then braceScan t c depth false sc (pos + 1)
      else if !inString && c == braceL then braceScan t c (depth + 1) inString sc (pos + 1)
      else if !inString && c == braceR then
        if depth - 1 == 0 then some pos else braceScan t c (depth - 1) inString sc (pos + 1)
      else braceScan t c depth inString sc (pos + 1)

def extractClassDefinition (content : List Char) (selectorStart braceStart : Nat) :
    Option (List Char) :=
  if braceStart ≥ content.length then none
  else
    match (content.drop braceStart).findIdx? (fun c => c == braceL) with
    | none => none
    | some k =>
        let openPos := braceStart + k
        let prev := if openPos = 0 then '\x00' else content.getD (openPos - 1) '\x00'
        match braceScan (content.drop openPos) prev 0 false '\x00' openPos with
        | some closePos => some (trimL ((content.take (closePos + 1)).drop selectorStart))
        | none => some (trimL (content.drop selectorStart))

structure ClassMatch where
  className : String
  definition : List Char
  lineNumber : Nat
  matchIndex : Nat
deriving DecidableEq

def findClassMatches (content : List Char) : List ClassMatch :=
  (scanClasses content 0).filterMap (fun m =>
    match extractClassDefinition content m.2.1 (m.2.1 + m.2.2 - 1) with
    | none => none
    | some d =>
        if d = [] then none
        else some ⟨m.1, d, lineNumberOfIndex content m.2.1, m.2.1⟩)

/-! ## `CSSParser.extractProperties` -/

/-- The greedy match of the braces pattern inside a definition: from the
first opening brace to the last closing brace after it, if any. -/
def braceInner (d : List Char) : Option (List Char) :=
  match d.findIdx? (fun c => c == braceL) with
  | none => none
  | some i =>
      let rest := d.drop (i + 1)
      match rest.reverse.findIdx? (fun c => c == braceR) with
      | none => none
      | some j => some (rest.take (rest.length - 1 - j))

/-- One property line: `^([^:]+):(.+)$` on the trimmed line (JavaScript `.`
matches neither newline nor carriage return), then both sides trimmed and
required non-empty. -/
def parsePropLine (line : List Char) : Option (String × String) :=
  let t := trimL line
  match t.findIdx? (fun c => c == ':') with
  | none => none
  | some i =>
      let n := t.take i
      let v := t.drop (i + 1)
      if n = [] then none
      else if v = [] then none
      else if '\n' ∈ v ∨ '\r' ∈ v then none
      else
        let pn := trimL n
        let pv := trimL v
        if pn ≠ [] ∧ pv ≠ [] then some (pn.asString, pv.asString) else none

def extractProperties (d : List Char) : List (String × String) :=
  match braceInner d with
  | none => []
  | some inner =>
      (splitOn ';' inner).foldl (fun props line =>
        match parsePropLine line with
        | some (pn, pv) => mSet props pn pv
        | none => props) []

/-! ## `CSSClass` model -/

structure CSSClass where
  name : String
  sourceFile : String
  lineNumber : Nat
  properties : List (String × String)
  fullDefinition : String
deriving DecidableEq

/-- The constructor regex `^[a-zA-Z_-][a-zA-Z0-9_-]*$` on a character list. -/
def validIdentL : List Char → Bool
  | [] => false
  | c :: cs => isIdentStart c && cs.all isIdentChar

/-- The constructor regex `^[a-zA-Z_-][a-zA-Z0-9_-]*$`. -/
def validClassName (s : String) : Bool := validIdentL s.data

def mkCSSClass (name sourceFile : String) (lineNumber : Nat)
    (properties : List (String × String)) (fullDefinition : String) :
    Except String CSSClass :=
  if !validClassName name then .error ("Invalid CSS class name: " ++ name)
  else if lineNumber < 1 then .error "Invalid line number"
  else .ok ⟨name, sourceFile, lineNumber, properties, fullDefinition⟩

/-! ## `CSSParser.extractClasses` -/

structure ExtractResult where
  classes : List (String × CSSClass)
  allOccurrences : List (String × List CSSClass)
deriving DecidableEq

def extractStep (r : ExtractResult) (m : ClassMatch) : ExtractResult :=
  match mkCSSClass m.className "" m.lineNumber (extractProperties m.definition)
      m.definition.asString with
  | .error _ => r
  | .ok c =>
      let classes :=
        if (mGet r.classes m.className).isSome then r.classes
        else mSet r.classes m.className c
      let allOccurrences :=
        match mGet r.allOccurrences m.className with
        | none => mSet r.allOccurrences m.className [c]
        | some l => mSet r.allOccurrences m.className (l ++ [c])
      ⟨classes, allOccurrences⟩

def extractClasses (cssContent : List Char) : ExtractResult :=
  if cssContent = [] ∨ trimL cssContent = [] then ⟨[], []⟩
  else (findClassMatches (removeComments cssContent)).foldl extractStep ⟨[], []⟩

/-! ## `CSSFile` model and `parseCSSContent` / `parseCSSFile` -/

structure CSSFile where
  filePath : String
  lastModified : Nat
  classes : List (String × CSSClass)
  allClassOccurrences : List (String × List CSSClass)
  rawContent : List Char
deriving DecidableEq

/-- The `CSSFile` constructor; the `lastModified < 0` check is vacuous here
because timestamps are naturals. -/
def mkCSSFile (filePath : String) (lastModified : Nat)
    (classes : List (String × CSSClass)) (rawContent : List Char)
    (allOcc : Option (List (String × List CSSClass))) : Except String CSSFile :=
  if filePath = "" || !isAbsolutePosix filePath then
    .error ("Invalid file path (must be absolute): " ++ filePath)
  else
    .ok ⟨filePath, lastModified, classes,
      allOcc.getD (classes.map (fun e => (e.1, [e.2]))), rawContent⟩

def restampClass (c : CSSClass) (filePath : String) : Except String CSSClass :=
  mkCSSClass c.name filePath c.lineNumber c.properties c.fullDefinition

/-- `parseCSSContent` re-runs the `CSSClass` constructor on every stored
class with the source file filled in, writing back under the class's own
name.  The TypeScript iterates the live map; for maps produced by
`extractClasses` every key equals its value's name, so no new entries can
appear during the iteration and this fold over the original entries is the
same function. -/
def restampClasses (m : List (String × CSSClass)) (filePath : String) :
    Except String (List (String × CSSClass)) :=
  m.foldlM (fun acc e => do
    let c2 ← restampClass e.2 filePath
    pure (mSet acc e.2.name c2)) m

def restampOccs (m : List (String × List CSSClass)) (filePath : String) :
    Except String (List (String × List CSSClass)) :=
  m.foldlM (fun acc e => do
    let l2 ← e.2.mapM (fun c => restampClass c filePath)
    pure (mSet acc e.1 l2)) ([] : List (String × List CSSClass))

def parseCSSContent (fs : FS) (now : Nat) (content : List Char) (filePath : String) :
    Except String CSSFile := do
  let r := extractClasses content
  let classes ← restampClasses r.classes filePath
  let allOcc ← restampOccs r.allOccurrences filePath
  let lastModified :=
    match mGet fs filePath with
    | some f => f.mtime
    | none => now
  mkCSSFile filePath lastModified classes content (some allOcc)

def parseCSSFile (fs : FS) (now : Nat) (filePath : String) : Except String CSSFile :=
  match mGet fs filePath with
  | none => .error ("CSS file not found: " ++ filePath)
  | some f => parseCSSContent fs now f.content filePath

/-! ## Node `path` (POSIX) and `PathResolver` -/

/-- Node `posix.dirname`. -/
def posixDirname (p : String) : String :=
  match p.data with
  | [] => "."
  | c0 :: rest =>
      let hasRoot := c0 = '/'
      let r1 := rest.reverse.dropWhile (fun c => c == '/')
      let r2 := r1.dropWhile (fun c => c != '/')
      if r2 = [] then (if hasRoot then "/" else ".")
      else if hasRoot ∧ r2.length = 1 then "//"
      else ((c0 :: rest).take r2.length).asString

/-- The segment normalization inside Node `posix.normalize`/`posix.resolve`:
empty and dot segments are dropped, a dot-dot pops the previous segment and
is kept only at the top of a relative path. -/
def normSegs (allowUp : Bool) : List (List Char) → List (List Char) → List (List Char)
  | acc, [] => acc.reverse
  | acc, seg :: rest =>
      if seg = [] ∨ seg = ['.'] then normSegs allowUp acc rest
      else if seg = ['.', '.'] then
        match acc with
        | top :: acc2 =>
            if top = ['.', '.'] then normSegs allowUp (['.', '.'] :: top :: acc2) rest
            else normSegs allowUp acc2 rest
        | [] =>
            if allowUp then normSegs allowUp [['.', '.']] rest else normSegs allowUp [] rest
      else normSegs allowUp (seg :: acc) rest

def joinSlash (segs : List (List Char)) : List Char :=
  match segs with
  | [] => []
  | s :: rest => rest.foldl (fun acc seg => acc ++ '/' :: seg) s

/-- Node `posix.normalize`. -/
def posixNormalize (p : String) : String :=
  match p.data with
  | [] => "."
  | l =>
      let isAbs := decide (l.head? = some '/')
      let trailingSep := decide (l.getLast? = some '/')
      let core := joinSlash (normSegs (!isAbs) [] (splitOn '/' l))
      let core := if core = [] ∧ !isAbs then ['.'] else core
      let core := if core ≠ [] ∧ trailingSep then core ++ ['/'] else core
      (if isAbs then '/' :: core else core).asString

/-- Node `posix.resolve` with two arguments; `cwd` stands for
`process.cwd()`, consulted only when neither argument is absolute. -/
def posixResolve (cwd a b : String) : String :=
  let step : List Char × Bool → List Char → List Char × Bool :=
    fun acc pathSegs =>
      if acc.2 then acc
      else if pathSegs = [] then acc
      else (pathSegs ++ '/' :: acc.1, decide (pathSegs.head? = some '/'))
  let r1 := step ([], false) b.data
  let r2 := step r1 a.data
  let r3 := if r2.2 then r2 else step r2 cwd.data
  let core := joinSlash (normSegs (!r3.2) [] (splitOn '/' r3.1))
  if r3.2 then ('/' :: core).asString
  else if core = [] then "."
  else core.asString

/-- The filesystem-independent part of `PathResolver.resolveImportPath`:
the validation guards, in source order, then strip the `./` prefix, join
with the component's directory (`path.resolve`), and normalize. -/
def resolveTargetPath (cwd importPath componentPath : String) : Option String :=
  if importPath = "" || componentPath = "" then none
  else if !strStarts importPath "./" then none
  else if isSubstr "../" importPath then none
  else if strStarts importPath "@/" || strStarts importPath "~" then none
  else
    let filename := (importPath.data.drop 2).asString
    let componentDir := posixDirname componentPath
    let resolvedPath := posixResolve cwd componentDir filename
    some (posixNormalize resolvedPath)

/-- `PathResolver.resolveImportPath` from `utils/pathResolver.ts`; the
filesystem is passed explicitly for the final `fs.existsSync` check. -/
def resolveImportPath (fs : FS) (cwd : String) (importPath componentPath : String) :
    Option String :=
  match resolveTargetPath cwd importPath componentPath with
  | none => none
  | some normalizedPath => if fsExists fs normalizedPath then some normalizedPath else none

/-! ## `ImportStatement` model -/

structure ImportStatement where
  importPath : String
  resolvedPath : String
  componentPath : String
  lineNumber : Int
deriving DecidableEq

/-- The private `isAbsolute` helper of `ImportStatement`: a leading slash or
a Windows drive letter. -/
def importStmtIsAbsolute (p : String) : Bool :=
  strStarts p "/" ||
    (match p.data with
     | a :: b :: _ => a.isAlpha && b == ':'
     | _ => false)

def mkImportStatement (importPath resolvedPath componentPath : String)
    (lineNumber : Int) : Except String ImportStatement :=
  if importPath = "" || !strStarts importPath "./" then
    .error ("Invalid import path (must start with ./): " ++ importPath)
  else if resolvedPath = "" || !importStmtIsAbsolute resolvedPath then
    .error ("Invalid resolved path (must be absolute): " ++ resolvedPath)
  else if componentPath = "" || !importStmtIsAbsolute componentPath then
    .error ("Invalid component path (must be absolute): " ++ componentPath)
  else if lineNumber < 1 then
    .error "Invalid line number"
  else
    .ok ⟨importPath, resolvedPath, componentPath, lineNumber⟩

/-! ## `ComponentIndex` model -/

structure ComponentIndex where
  componentPath : String
  cssFiles : List (String × CSSFile)
  allClasses : List (String × CSSClass)
deriving DecidableEq

def buildAllClasses (files : List (String × CSSFile)) : List (String × CSSClass) :=
  files.foldl (fun all pf =>
    pf.2.classes.foldl (fun all nc =>
      if (mGet all nc.1).isSome then all else mSet all nc.1 nc.2) all) []

def mkComponentIndex (componentPath : String) (cssFiles : List (String × CSSFile)) :
    Except String ComponentIndex :=
  if componentPath = "" then .error "Component path is required"
  else .ok ⟨componentPath, cssFiles, buildAllClasses cssFiles⟩

/-! ## `CSSIndex` engine -/

structure EngineState where
  index : List (String × ComponentIndex)
  fileCache : List (String × CSSFile)
  cssFileToComponents : List (String × List String)
deriving DecidableEq

def emptyEngine : EngineState := ⟨[], [], []⟩

def getComponentIndex (st : EngineState) (componentPath : String) : Option ComponentIndex :=
  mGet st.index componentPath

def getClass (st : EngineState) (componentPath className : String) : Option CSSClass :=
  (getComponentIndex st componentPath).bind (fun ci => mGet ci.allClasses className)

/-- `CSSFileCache.isStale`: a `statSync` failure (missing file) counts as stale. -/
def isStale (fs : FS) (cache : List (String × CSSFile)) (p : String) : Bool :=
  match mGet cache p with
  | none => true
  | some cached =>
      match mGet fs p with
      | none => true
      | some f => f.mtime != cached.lastModified

/-- One file of `removeComponentFromReverseMapping`'s loop: drop the
component from the file's reverse set, deleting the set when it empties. -/
def rcrmStep (componentPath : String) (rm : List (String × List String))
    (pf : String × CSSFile) : List (String × List String) :=
  match mGet rm pf.1 with
  | none => rm
  | some comps =>
      let comps2 := sDel comps componentPath
      if comps2 = [] then mDel rm pf.1 else mSet rm pf.1 comps2

def removeComponentFromReverseMapping (st : EngineState) (componentPath : String) :
    EngineState :=
  match mGet st.index componentPath with
  | none => st
  | some oldIndex =>
      { st with cssFileToComponents :=
          oldIndex.cssFiles.foldl (rcrmStep componentPath) st.cssFileToComponents }

/-- The success tail of `indexComponent`'s per-file loop: record the file in
the new `cssFiles` map and add the component to the file's reverse-map set
(created first when absent). -/
def addFileEntry (componentPath p : String) (st : EngineState)
    (cssFiles : List (String × CSSFile)) (cf : CSSFile) :
    EngineState × List (String × CSSFile) :=
  let rm :=
    match mGet st.cssFileToComponents p with
    | none => mSet st.cssFileToComponents p (sAdd [] componentPath)
    | some s => mSet st.cssFileToComponents p (sAdd s componentPath)
  ({ st with cssFileToComponents := rm }, mSet cssFiles p cf)

/-- The body of `indexComponent`'s per-file loop: cache-first lookup, reparse
on miss or staleness (overwriting the cache entry), skip the file entirely
on a parse failure. -/
def indexFileStep (fs : FS) (now : Nat) (componentPath : String)
    (acc : EngineState × List (String × CSSFile)) (p : String) :
    EngineState × List (String × CSSFile) :=
  match mGet acc.1.fileCache p with
  | none =>
      (match parseCSSFile fs now p with
       | .error _ => acc
       | .ok cf =>
          addFileEntry componentPath p
            { acc.1 with fileCache := mSet acc.1.fileCache p cf } acc.2 cf)
  | some cached =>
      if isStale fs acc.1.fileCache p then
        match parseCSSFile fs now p with
        | .error _ => acc
        | .ok cf =>
            addFileEntry componentPath p
              { acc.1 with fileCache := mSet acc.1.fileCache p cf } acc.2 cf
      else addFileEntry componentPath p acc.1 acc.2 cached

def exceptIsOk {ε α : Type} : Except ε α → Bool
  | .ok _ => true
  | .error _ => false

/-- Whether `indexComponent`'s loop will obtain a `CSSFile` for path `p`
against a given cache: a fresh non-stale cache hit, or a successful parse. -/
def fileObtainable (fs : FS) (now : Nat) (cache : List (String × CSSFile)) (p : String) :
    Bool :=
  if (mGet cache p).isNone || isStale fs cache p then exceptIsOk (parseCSSFile fs now p)
  else true

/-- First occurrences of a list, in order — the key order a JavaScript map
built by successive `set` calls ends up with. -/
def dedupFirst (ps : List String) : List String :=
  ps.foldl (fun a q => if q ∈ a then a else a ++ [q]) []

/-- How `indexComponent`'s loop is allowed to change the file cache: every
entry is either untouched or overwritten with a successful fresh parse. -/
def CacheEvolved (fs : FS) (now : Nat) (cache0 cache : List (String × CSSFile)) : Prop :=
  ∀ q, mGet cache q = mGet cache0 q ∨
    ∃ cf, parseCSSFile fs now q = .ok cf ∧ mGet cache q = some cf

/-- `CSSIndex.indexComponent`.  The returned option is the exception that
escapes the method: the only uncaught throw is the `ComponentIndex`
constructor's empty-path check, which happens after the reverse mapping and
cache have already been mutated. -/
def indexComponent (fs : FS) (now : Nat) (st : EngineState) (componentPath : String)
    (cssFilePaths : List String) : EngineState × Option String :=
  let st1 := removeComponentFromReverseMapping st componentPath
  let r := cssFilePaths.foldl (indexFileStep fs now componentPath) (st1, [])
  match mkComponentIndex componentPath r.2 with
  | .error e => (r.1, some e)
  | .ok ci => ({ r.1 with index := mSet r.1.index componentPath ci }, none)

/-- One dependent component's re-index inside `updateCSSFile`: skip the
component if it is no longer indexed, else re-run `indexComponent` with its
existing full import set. -/
def updStep (fs : FS) (now : Nat) (st : EngineState) (cp : String) : EngineState :=
  match mGet st.index cp with
  | none => st
  | some ci => (indexComponent fs now st cp (mKeys ci.cssFiles)).1

/-- `CSSIndex.updateCSSFile`.  The TypeScript snapshots each dependent's
set of imports synchronously and then awaits the re-index promises; as every
re-index only writes its own component's entry and every cache write for a
given path is the same freshly parsed record, the resulting state equals
this sequential fold over the members of the reverse-map entry. -/
def updateCSSFile (fs : FS) (now : Nat) (st : EngineState) (filePath : String) :
    EngineState :=
  let st1 := { st with fileCache := mDel st.fileCache filePath }
  match mGet st1.cssFileToComponents filePath with
  | none => st1
  | some comps =>
      if comps = [] then st1
      else comps.foldl (updStep fs now) st1

/-- `CSSIndex.removeCSSFile`. -/
def removeCSSFile (st : EngineState) (filePath : String) : EngineState :=
  let st1 := { st with fileCache := mDel st.fileCache filePath }
  match mGet st1.cssFileToComponents filePath with
  | none => { st1 with cssFileToComponents := mDel st1.cssFileToComponents filePath }
  | some comps =>
      if comps = [] then { st1 with cssFileToComponents := mDel st1.cssFileToComponents filePath }
      else
        let idx := comps.foldl mDel st1.index
        { st1 with index := idx, cssFileToComponents := mDel st1.cssFileToComponents filePath }

/-- `CSSIndex.handleComponentChange`. -/
def handleComponentChange (st : EngineState) (componentPath : String) : EngineState :=
  let st1 := removeComponentFromReverseMapping st componentPath
  { st1 with index := mDel st1.index componentPath }

/-! ## Operation traces over the engine -/

inductive EngineOp where
  | idx (componentPath : String) (cssFilePaths : List String)
  | upd (filePath : String)
  | rem (filePath : String)
  | chg (componentPath : String)
deriving DecidableEq

/-- One engine call; the filesystem and clock at the moment of the call are
part of the trace element, so files may change between calls. -/
def runOp (st : EngineState) : FS × Nat × EngineOp → EngineState
  | (fs, now, .idx cp ps) => (indexComponent fs now st cp ps).1
  | (fs, now, .upd f) => updateCSSFile fs now st f
  | (_, _, .rem f) => removeCSSFile st f
  | (_, _, .chg cp) => handleComponentChange st cp

def runTrace (tr : List (FS × Nat × EngineOp)) (st : EngineState) : EngineState :=
  tr.foldl runOp st

/-! ## Debounced CSS-change dispatch (`handleCSSFileChange`)

The timer table maps a path to the absolute time at which its pending
`updateCSSFile` would fire.  An incoming change/create event first lets any
timer already due fire, then cancels the path's pending timer and schedules
a new one a full window later — the trailing-edge debounce of the source. -/

def DEBOUNCE_DELAY_MS : Nat := 2000

structure DebounceState where
  timers : List (String × Nat)
  fires : List (String × Nat)
deriving DecidableEq

def debEvent (st : DebounceState) (p : String) (t : Nat) : DebounceState :=
  let due := st.timers.filter (fun x => x.2 ≤ t)
  let remaining := st.timers.filter (fun x => !(x.2 ≤ t))
  let timers2 := mSet remaining p (t + DEBOUNCE_DELAY_MS)
  ⟨timers2, st.fires ++ due⟩

/-- Process a chronological list of change events, then let every timer
still pending fire. -/
def debounceRun (events : List (String × Nat)) : DebounceState :=
  let st := events.foldl (fun st e => debEvent st e.1 e.2) ⟨[], []⟩
  ⟨[], st.fires ++ st.timers⟩

/-- The result of re-running the `CSSClass` constructor with only the
source file changed (what `parseCSSContent` does to every stored class). -/
def stampC (c : CSSClass) (fp : String) : CSSClass :=
  ⟨c.name, fp, c.lineNumber, c.properties, c.fullDefinition⟩

/-- A class that the `CSSClass` constructor accepts. -/
def validC (c : CSSClass) : Prop := validClassName c.name = true ∧ 1 ≤ c.lineNumber

/-- Invariant of the `extractClasses` accumulation: the two maps cover the
same names, each occurrence list is non-empty with the `classes` entry at
its head, keys equal the stored class names, every stored class would be
accepted again by the constructor, and keys are unique. -/
def ExtractInv (r : ExtractResult) : Prop :=
  (∀ k, (mGet r.classes k).isSome ↔ (mGet r.allOccurrences k).isSome)
  ∧ (∀ k l, mGet r.allOccurrences k = some l →
      ∃ c t2, l = c :: t2 ∧ mGet r.classes k = some c)
  ∧ (∀ e ∈ r.classes, e.1 = e.2.name ∧ validC e.2)
  ∧ (∀ e ∈ r.allOccurrences, ∀ c ∈ e.2, e.1 = c.name ∧ validC c)
  ∧ (mKeys r.classes).Nodup ∧ (mKeys r.allOccurrences).Nodup

/-! ## Concrete fixtures used by witnesses and counterexamples -/

def compoundCss : List Char := ".a.b \x7b color: red; \x7d".toList

def cssContentA : List Char := ".x\x7bcolor:red\x7d".toList

def cssContentB : List Char := ".y\x7bz:w\x7d".toList

def cssContentShared2 : List Char := ".shared\x7bcolor:green\x7d".toList

def fsTwo : FS := [("/a.css", ⟨cssContentA, 10⟩), ("/b.css", ⟨cssContentB, 20⟩)]

def fsValidOnly : FS := [("/valid.css", ⟨cssContentA, 10⟩)]

def fsShared1 : FS := [("/shared.css", ⟨cssContentA, 10⟩)]

def fsShared2 : FS := [("/shared.css", ⟨cssContentShared2, 11⟩)]

/-- Two stylesheets that both define `.x`, for order-sensitivity checks. -/
def cssContentBX : List Char := ".x\x7bcolor:blue\x7d.y\x7bz:w\x7d".toList

def fsClash : FS := [("/a.css", ⟨cssContentA, 10⟩), ("/b.css", ⟨cssContentBX, 20⟩)]

/-- State with two components both importing the shared stylesheet, indexed
against the original filesystem. -/
def stShared : EngineState :=
  runTrace [(fsShared1, 0, .idx "/A.tsx" ["/shared.css"]),
            (fsShared1, 0, .idx "/B.tsx" ["/shared.css"])] emptyEngine

/-- The fresh parse of the updated shared stylesheet. -/
def cfShared2 : CSSFile :=
  match parseCSSFile fsShared2 0 "/shared.css" with
  | .ok cf => cf
  | .error _ => ⟨"/", 0, [], [], []⟩

/-! ## Engine invariants (for C1) -/

/-- `cp` is a member of the reverse-map set stored for file `p`. -/
def memSet (m : List (String × List String)) (p cp : String) : Prop :=
  ∃ s, mGet m p = some s ∧ cp ∈ s

/-- Every CSS file of every indexed component lists that component in its
reverse-map set. -/
def Forward (st : EngineState) : Prop :=
  ∀ cp ci, mGet st.index cp = some ci →
    ∀ p, p ∈ mKeys ci.cssFiles → memSet st.cssFileToComponents p cp

/-- Every member of every reverse-map set is an indexed component that
lists the file among its CSS files. -/
def Backward (st : EngineState) : Prop :=
  ∀ p s, mGet st.cssFileToComponents p = some s →
    ∀ cp, cp ∈ s → ∃ ci, mGet st.index cp = some ci ∧ p ∈ mKeys ci.cssFiles

/-- The empty component path is never indexed (the `ComponentIndex`
constructor rejects it before the index write). -/
def NoEmptyKey (st : EngineState) : Prop := mGet st.index "" = none

def EngineInv (st : EngineState) : Prop := Forward st ∧ Backward st ∧ NoEmptyKey st

/-- Operations under which bidirectional consistency is actually preserved:
everything except `removeCSSFile`, with non-empty component paths on
`indexComponent`. -/
def opSafe : EngineOp → Bool
  | .idx cp _ => cp != ""
  | .upd _ => true
  | .rem _ => false
  | .chg _ => true

/-- The two-file component indexed and then one file removed: the engine
state exhibiting the stale reverse entry. -/
def stC1 : EngineState :=
  runTrace [(fsTwo, 0, .idx "/C.tsx" ["/a.css", "/b.css"]),
            (fsTwo, 0, .rem "/a.css")] emptyEngine

/-! ## Newline counting and C10 fixtures -/

/-- Number of newline characters in a chunk of content. -/
def countNl : List Char → Nat
  | [] => 0
  | c :: t => (if c = '\n' then 1 else 0) + countNl t

def preC10 : List Char := []

def midC10 : List Char := ['x', '\n', 'y']

def postC10 : List Char := ".x\x7bc:d\x7d".toList

def contentC10 : List Char := preC10 ++ '/' :: '*' :: (midC10 ++ '*' :: '/' :: postC10)

/-- The first match found in the comment-stripped C10 content. -/
def mC10 : ClassMatch :=
  match findClassMatches (removeComments contentC10) with
  | m :: _ => m
  | [] => ⟨"", ['x'], 1, 0⟩

/-! ## Association-list map and set lemmas -/

theorem mGet_mSet_self {α β : Type} [DecidableEq α] (m : List (α × β)) (k : α) (v : β) :
    mGet (mSet m k v) k = some v := by
  induction m with
  | nil => simp [mGet, mSet]
  | cons e t ih =>
    by_cases h : e.1 = k
    · simp [mGet, mSet, h]
    · simp [mGet, mSet, h, ih]

theorem mGet_mSet_ne {α β : Type} [DecidableEq α] (m : List (α × β)) (k k2 : α) (v : β)
    (h : k ≠ k2) : mGet (mSet m k v) k2 = mGet m k2 := by
  induction m with
  | nil => simp [mGet, mSet, h]
  | cons e t ih =>
    by_cases he : e.1 = k
    · have hne : ¬e.1 = k2 := fun hc => h (he.symm.trans hc)
      simp [mSet, he, mGet, hne, h]
    · simp only [mSet, if_neg he]
      by_cases he2 : e.1 = k2
      · simp [mGet, he2]
      · simp [mGet, he2, ih]

theorem mGet_mDel_self {α β : Type} [DecidableEq α] (m : List (α × β)) (k : α) :
    mGet (mDel m k) k = none := by
  induction m with
  | nil => simp [mGet, mDel]
  | cons e t ih =>
    by_cases h : e.1 = k
    · simp [mDel, h, ih]
    · simp [mDel, h, mGet, ih]

theorem mGet_mDel_ne {α β : Type} [DecidableEq α] (m : List (α × β)) (k k2 : α)
    (h : k ≠ k2) : mGet (mDel m k) k2 = mGet m k2 := by
  induction m with
  | nil => simp [mGet, mDel]
  | cons e t ih =>
    by_cases he : e.1 = k
    · have hne : ¬e.1 = k2 := fun hc => h (he.symm.trans hc)
      simp [mDel, he, mGet, hne, ih, h]
    · by_cases he2 : e.1 = k2
      · simp [mDel, he, mGet, he2, Ne.symm h]
      · simp [mDel, he, mGet, he2, ih]

/-! ## Lemmas about the string primitives -/

theorem leadsWith_head {a : Char} {s l : List Char}
    (h : leadsWith (a :: s) l = true) : ∃ t, l = a :: t := by
  cases l with
  | nil => simp [leadsWith] at h
  | cons b t =>
    simp only [leadsWith, Bool.and_eq_true, beq_iff_eq] at h
    exact ⟨t, by rw [h.1]⟩

theorem strStarts_alias_not_dot {ip : String}
    (h : (strStarts ip "@/" || strStarts ip "~") = true) : strStarts ip "./" = false := by
  have h2 : strStarts ip "@/" = true ∨ strStarts ip "~" = true := by
    simpa using h
  rcases h2 with h1 | h1
  · obtain ⟨t, ht⟩ := leadsWith_head (show leadsWith ('@' :: '/' :: []) ip.data = true from h1)
    simp [strStarts, ht, leadsWith]
  · obtain ⟨t, ht⟩ := leadsWith_head (show leadsWith ('~' :: []) ip.data = true from h1)
    simp [strStarts, ht, leadsWith]

theorem strStarts_dot_not_alias {ip : String} (h : strStarts ip "./" = true) :
    (strStarts ip "@/" || strStarts ip "~") = false := by
  obtain ⟨t, ht⟩ := leadsWith_head (show leadsWith ('.' :: '/' :: []) ip.data = true from h)
  simp [strStarts, ht, leadsWith]

theorem strStarts_dot_ne_empty {ip : String} (h : strStarts ip "./" = true) : ip ≠ "" := by
  obtain ⟨t, ht⟩ := leadsWith_head (show leadsWith ('.' :: '/' :: []) ip.data = true from h)
  intro hc
  subst hc
  simp at ht

/-! ## C5: same-directory-only import resolution -/

/-- C5: `resolveImportPath` rejects (returns null for) every import path
that does not start with `./`, contains `../`, or uses an alias prefix;
for the remaining paths it strips `./`, joins with the component's
directory, normalizes, and returns the result exactly when it exists on
disk.  Includes the spec's three concrete examples. -/
theorem claim_C5 :
    (∀ (fs : FS) (cwd ip cp : String), strStarts ip "./" = false →
      resolveImportPath fs cwd ip cp = none)
    ∧ (∀ (fs : FS) (cwd ip cp : String), isSubstr "../" ip = true →
      resolveImportPath fs cwd ip cp = none)
    ∧ (∀ (fs : FS) (cwd ip cp : String), (strStarts ip "@/" || strStarts ip "~") = true →
      resolveImportPath fs cwd ip cp = none)
    ∧ (∀ (fs : FS) (cwd cp : String), resolveImportPath fs cwd "../x.css" cp = none)
    ∧ (∀ (fs : FS) (cwd : String),
      resolveImportPath fs cwd "@/x.css" "/a/b/Component.tsx" = none)
    ∧ (∀ (fs : FS) (cwd : String),
      resolveImportPath fs cwd "./x.css" "/a/b/Component.tsx" =
        if fsExists fs "/a/b/x.css" then some "/a/b/x.css" else none)
    ∧ (∀ (fs : FS) (cwd ip cp : String), strStarts ip "./" = true →
      isSubstr "../" ip = false → cp ≠ "" →
      resolveImportPath fs cwd ip cp =
        (if fsExists fs (posixNormalize (posixResolve cwd (posixDirname cp)
            ((ip.data.drop 2).asString))) = true then
          some (posixNormalize (posixResolve cwd (posixDirname cp) ((ip.data.drop 2).asString)))
        else none)) := by
  have hnull : ∀ (fs : FS) (cwd ip cp : String), strStarts ip "./" = false →
      resolveImportPath fs cwd ip cp = none := by
    intro fs cwd ip cp h
    unfold resolveImportPath resolveTargetPath
    by_cases h1 : ip = "" ∨ cp = ""
    · rcases h1 with h1 | h1 <;> simp [h1]
    · push_neg at h1
      simp [h1.1, h1.2, h]
  have hdotdot : ∀ (fs : FS) (cwd ip cp : String), isSubstr "../" ip = true →
      resolveImportPath fs cwd ip cp = none := by
    intro fs cwd ip cp h
    unfold resolveImportPath resolveTargetPath
    by_cases h1 : ip = "" ∨ cp = ""
    · rcases h1 with h1 | h1 <;> simp [h1]
    · push_neg at h1
      by_cases h2 : strStarts ip "./" = true
      · simp [h1.1, h1.2, h2, h]
      · simp [h1.1, h1.2, Bool.eq_false_iff.mpr h2]
  refine ⟨hnull, hdotdot, ?_, ?_, ?_, ?_, ?_⟩
  · intro fs cwd ip cp h
    exact hnull fs cwd ip cp (strStarts_alias_not_dot h)
  · intro fs cwd cp
    exact hdotdot fs cwd "../x.css" cp (by decide)
  · intro fs cwd
    exact hnull fs cwd "@/x.css" _ (by decide)
  · intro fs cwd
    have ht : resolveTargetPath cwd "./x.css" "/a/b/Component.tsx" = some "/a/b/x.css" := rfl
    rw [resolveImportPath, ht]
  · intro fs cwd ip cp h1 h2 h3
    unfold resolveImportPath resolveTargetPath
    simp [strStarts_dot_ne_empty h1, h3, h1, h2, strStarts_dot_not_alias h1]

/-- C5 witness: the null guards and the positive example at a concrete
filesystem containing `/a/b/x.css`. -/
theorem claim_C5_witness :
    resolveImportPath [("/a/b/x.css", ⟨[], 3⟩)] "/" "../x.css" "/a/b/Component.tsx" = none
    ∧ resolveImportPath [("/a/b/x.css", ⟨[], 3⟩)] "/" "@/x.css" "/a/b/Component.tsx" = none
    ∧ resolveImportPath [("/a/b/x.css", ⟨[], 3⟩)] "/" "./x.css" "/a/b/Component.tsx" =
        some "/a/b/x.css"
    ∧ resolveImportPath [] "/" "./x.css" "/a/b/Component.tsx" = none := by
  refine ⟨claim_C5.2.2.2.1 _ "/" "/a/b/Component.tsx", claim_C5.2.2.2.2.1 _ "/", ?_, ?_⟩
  · rw [claim_C5.2.2.2.2.2.1 _ "/"]; decide
  · rw [claim_C5.2.2.2.2.2.1 _ "/"]; decide

/-! ## C2: compound selectors -/

/-- C2 counterexample: on `.a.b { color: red; }` the parser records a match
on `b` — the class token adjacent to the brace — and `a` does not appear in
either returned map, contradicting the claim that the match is on the first
token `a` and that `b` is not extracted. -/
theorem claim_C2_counterexample :
    mGet (extractClasses compoundCss).classes "a" = none
    ∧ mGet (extractClasses compoundCss).allOccurrences "a" = none
    ∧ (mGet (extractClasses compoundCss).classes "b").isSome = true
    ∧ (mGet (extractClasses compoundCss).allOccurrences "b").isSome = true := by
  decide

/-! ## C8: ImportStatement construction -/

/-- C8 counterexample: an import path that violates the same-directory
constraint by containing `../` still constructs successfully — the
constructor never checks for `../`. -/
theorem claim_C8_counterexample :
    isSubstr "../" "./x/../y.css" = true
    ∧ exceptIsOk (mkImportStatement "./x/../y.css" "/a/y.css" "/a/C.tsx" 1) = true := by
  decide

/-- C8 amended: construction fails exactly when `importPath` does not start
with `./`, or `resolvedPath` or `componentPath` fails the constructor's
absolute-path check (leading slash or drive letter), or `lineNumber < 1`;
a `../` inside the import path is not checked and does not cause failure. -/
theorem claim_C8_amended (ip rp cp : String) (ln : Int) :
    exceptIsOk (mkImportStatement ip rp cp ln) = true ↔
      (strStarts ip "./" = true ∧ importStmtIsAbsolute rp = true ∧
       importStmtIsAbsolute cp = true ∧ 1 ≤ ln) := by
  unfold mkImportStatement
  split
  · next h =>
    simp only [exceptIsOk, Bool.false_eq_true, false_iff]
    rintro ⟨ha, hb, hc, hd⟩
    simp only [Bool.or_eq_true, decide_eq_true_eq, Bool.not_eq_true'] at h
    rcases h with h | h
    · subst h; simp [strStarts, leadsWith] at ha
    · rw [ha] at h; simp at h
  · next h1 =>
    split
    · next h =>
      simp only [exceptIsOk, Bool.false_eq_true, false_iff]
      rintro ⟨ha, hb, hc, hd⟩
      simp only [Bool.or_eq_true, decide_eq_true_eq, Bool.not_eq_true'] at h
      rcases h with h | h
      · subst h; simp [importStmtIsAbsolute, strStarts, leadsWith] at hb
      · rw [hb] at h; simp at h
    · next h2 =>
      split
      · next h =>
        simp only [exceptIsOk, Bool.false_eq_true, false_iff]
        rintro ⟨ha, hb, hc, hd⟩
        simp only [Bool.or_eq_true, decide_eq_true_eq, Bool.not_eq_true'] at h
        rcases h with h | h
        · subst h; simp [importStmtIsAbsolute, strStarts, leadsWith] at hc
        · rw [hc] at h; simp at h
      · next h3 =>
        split
        · next h =>
          simp only [exceptIsOk, Bool.false_eq_true, false_iff]
          rintro ⟨ha, hb, hc, hd⟩
          omega
        · next h4 =>
          simp only [exceptIsOk, true_iff]
          simp only [Bool.or_eq_true, decide_eq_true_eq, Bool.not_eq_true',
            not_or, Bool.not_eq_false] at h1 h2 h3
          exact ⟨h1.2, h2.2, h3.2, by omega⟩

/-! ## C9: trailing-edge debounce -/

theorem mKeys_mSet {α β : Type} [DecidableEq α] (m : List (α × β)) (k : α) (v : β) :
    mKeys (mSet m k v) = if k ∈ mKeys m then mKeys m else mKeys m ++ [k] := by
  induction m with
  | nil => simp [mKeys, mSet]
  | cons e t ih =>
    by_cases h : e.1 = k
    · simp [mSet, h, mKeys]
    · simp only [mSet, if_neg h, mKeys, List.map_cons] at ih ⊢
      rw [ih]
      by_cases hk : k ∈ List.map Prod.fst t
      · simp [hk, Ne.symm h]
      · simp [hk, Ne.symm h]

theorem mKeys_mSet_nodup {α β : Type} [DecidableEq α] (m : List (α × β)) (k : α) (v : β)
    (h : (mKeys m).Nodup) : (mKeys (mSet m k v)).Nodup := by
  rw [mKeys_mSet]
  by_cases hk : k ∈ mKeys m
  · simp [hk, h]
  · simp [hk, h, List.nodup_append]

theorem mKeys_filter_nodup {α β : Type} [DecidableEq α] (m : List (α × β)) (f : α × β → Bool)
    (h : (mKeys m).Nodup) : (mKeys (m.filter f)).Nodup := by
  induction m with
  | nil => simp [mKeys]
  | cons e t ih =>
    simp only [mKeys, List.map_cons, List.nodup_cons] at h
    by_cases hf : f e
    · simp only [List.filter_cons, hf, if_pos, mKeys, List.map_cons, List.nodup_cons]
      refine ⟨fun hc => h.1 ?_, ih h.2⟩
      have : mKeys (t.filter f) ⊆ mKeys t := by
        intro x hx
        simp only [mKeys, List.mem_map] at hx ⊢
        obtain ⟨p, hp, hpx⟩ := hx
        exact ⟨p, List.mem_of_mem_filter hp, hpx⟩
      exact this hc
    · simp only [List.filter_cons, hf]
      exact ih h.2

/-- C9: each path has at most one pending timer (the timer table's keys stay
distinct through any event sequence), and a burst of three change events to
one CSS path, each arriving within the debounce window of its predecessor,
produces exactly one updateCSSFile firing, one full window after the last
event of the burst. -/
theorem claim_C9 :
    (∀ events : List (String × Nat),
      (mKeys ((events.foldl (fun st e => debEvent st e.1 e.2) ⟨[], []⟩).timers)).Nodup)
    ∧ (∀ (p : String) (t1 t2 t3 : Nat), t1 ≤ t2 → t2 ≤ t3 →
        t2 < t1 + DEBOUNCE_DELAY_MS → t3 < t2 + DEBOUNCE_DELAY_MS →
        debounceRun [(p, t1), (p, t2), (p, t3)] = ⟨[], [(p, t3 + DEBOUNCE_DELAY_MS)]⟩) := by
  constructor
  · have hstep : ∀ (st : DebounceState) (e : String × Nat), (mKeys st.timers).Nodup →
        (mKeys (debEvent st e.1 e.2).timers).Nodup := by
      intro st e h
      unfold debEvent
      exact mKeys_mSet_nodup _ _ _ (mKeys_filter_nodup _ _ h)
    intro events
    suffices hgen : ∀ (st : DebounceState), (mKeys st.timers).Nodup →
        (mKeys ((events.foldl (fun st e => debEvent st e.1 e.2) st).timers)).Nodup by
      exact hgen ⟨[], []⟩ (by simp [mKeys])
    induction events with
    | nil => intro st h; simpa using h
    | cons e rest ih =>
      intro st h
      simpa using ih (debEvent st e.1 e.2) (hstep st e h)
  · intro p t1 t2 t3 h12 h23 hw1 hw2
    have e1 : debEvent ⟨[], []⟩ p t1 = ⟨[(p, t1 + DEBOUNCE_DELAY_MS)], []⟩ := by
      simp [debEvent, mSet]
    have hn1 : ¬(t1 + DEBOUNCE_DELAY_MS ≤ t2) := by omega
    have e2 : debEvent ⟨[(p, t1 + DEBOUNCE_DELAY_MS)], []⟩ p t2 =
        ⟨[(p, t2 + DEBOUNCE_DELAY_MS)], []⟩ := by
      simp [debEvent, mSet, List.filter, hn1]
    have hn2 : ¬(t2 + DEBOUNCE_DELAY_MS ≤ t3) := by omega
    have e3 : debEvent ⟨[(p, t2 + DEBOUNCE_DELAY_MS)], []⟩ p t3 =
        ⟨[(p, t3 + DEBOUNCE_DELAY_MS)], []⟩ := by
      simp [debEvent, mSet, List.filter, hn2]
    unfold debounceRun
    simp only [List.foldl_cons, List.foldl_nil, e1, e2, e3]
    simp

/-- C9 witness: three writes at t = 0, 500, 1000 collapse into the single
invocation at t = 3000. -/
theorem claim_C9_witness :
    debounceRun [("/s.css", 0), ("/s.css", 500), ("/s.css", 1000)] =
      ⟨[], [("/s.css", 3000)]⟩ := by
  have h := claim_C9.2 "/s.css" 0 500 1000 (by omega) (by omega) (by decide) (by decide)
  exact h

/-! ## Scanner lemmas for the compound-selector analysis -/

theorem scanClassesF_congr :
    ∀ (n : Nat) (l : List Char), l.length ≤ n → ∀ (m : Nat), l.length ≤ m →
      ∀ i, scanClassesF n l i = scanClassesF m l i := by
  intro n
  induction n with
  | zero =>
    intro l hl m hm i
    have hnil : l = [] := List.eq_nil_of_length_eq_zero (Nat.le_zero.mp hl)
    subst hnil
    cases m <;> simp [scanClassesF]
  | succ n ih =>
    intro l hl m hm i
    cases l with
    | nil => cases m <;> simp [scanClassesF]
    | cons c t =>
      obtain ⟨m2, rfl⟩ : ∃ m2, m = m2 + 1 := ⟨m - 1, by simp at hm; omega⟩
      simp only [scanClassesF]
      cases hmc : matchClassAt (c :: t) with
      | none =>
        exact ih t (by simp at hl; omega) m2 (by simp at hm; omega) (i + 1)
      | some pr =>
        obtain ⟨nm, len⟩ := pr
        dsimp only
        have h1 : (t.drop (len - 1)).length ≤ n := by
          simp only [List.length_drop]
          simp at hl
          omega
        have h2 : (t.drop (len - 1)).length ≤ m2 := by
          simp only [List.length_drop]
          simp at hm
          omega
        congr 1
        exact ih _ h1 m2 h2 _

theorem scanClasses_cons (c : Char) (t : List Char) (i : Nat) :
    scanClasses (c :: t) i =
      match matchClassAt (c :: t) with
      | some (nm, len) => (nm, i, len) :: scanClasses (t.drop (len - 1)) (i + len)
      | none => scanClasses t (i + 1) := by
  unfold scanClasses
  simp only [List.length_cons, scanClassesF]
  cases hmc : matchClassAt (c :: t) with
  | none => rfl
  | some pr =>
    obtain ⟨nm, len⟩ := pr
    dsimp only
    congr 1
    exact scanClassesF_congr t.length _ (by simp only [List.length_drop]; omega) _ le_rfl _

theorem matchClassAt_no_dot (c : Char) (t : List Char) (h : c ≠ '.') :
    matchClassAt (c :: t) = none := by
  cases t with
  | nil => simp [matchClassAt]
  | cons b t2 =>
    rw [matchClassAt, if_neg (fun hc => h hc.1)]

theorem scanClasses_skip (a rest : List Char) (i : Nat) (h : ∀ c ∈ a, c ≠ '.') :
    scanClasses (a ++ rest) i = scanClasses rest (i + a.length) := by
  induction a generalizing i with
  | nil => simp
  | cons c t ih =>
    rw [List.cons_append, scanClasses_cons, matchClassAt_no_dot c _ (h c (by simp))]
    rw [ih (i + 1) (fun c2 hc => h c2 (by simp [hc]))]
    have harith : i + 1 + t.length = i + (c :: t).length := by simp; omega
    rw [harith]

theorem takeWhile_all_append {p : Char → Bool} (b : List Char) (x : Char) (r : List Char)
    (hb : ∀ c ∈ b, p c = true) (hx : p x = false) :
    (b ++ x :: r).takeWhile p = b ∧ (b ++ x :: r).dropWhile p = x :: r := by
  induction b with
  | nil => simp [List.takeWhile_cons, List.dropWhile_cons, hx]
  | cons c t ih =>
    have hc := hb c (by simp)
    obtain ⟨ih1, ih2⟩ := ih (fun c2 h2 => hb c2 (by simp [h2]))
    simp [List.takeWhile_cons, List.dropWhile_cons, hc, ih1, ih2]

theorem matchClassAt_ident (c : Char) (cs : List Char) (r : List Char)
    (hstart : isIdentStart c = true) (hcs : ∀ x ∈ cs, isIdentChar x = true) :
    matchClassAt ('.' :: c :: (cs ++ braceL :: r)) =
      some ((c :: cs).asString, cs.length + 3) := by
  rw [matchClassAt, if_pos ⟨rfl, hstart⟩]
  obtain ⟨ht, hd⟩ := takeWhile_all_append cs braceL r hcs (by decide)
  dsimp only
  rw [ht, hd]
  rw [List.takeWhile_cons_of_neg (by decide), List.dropWhile_cons_of_neg (by decide)]
  show (if braceL = braceL then
      some ((c :: cs).asString, 1 + (1 + cs.length) + ([] : List Char).length + 1)
    else none) = some ((c :: cs).asString, cs.length + 3)
  rw [if_pos rfl]
  have : 1 + (1 + cs.length) + ([] : List Char).length + 1 = cs.length + 3 := by
    simp
    omega
  rw [this]

theorem matchClassAt_ident_nobrace (c : Char) (cs : List Char) (x : Char) (r : List Char)
    (hstart : isIdentStart c = true) (hcs : ∀ y ∈ cs, isIdentChar y = true)
    (hx1 : isIdentChar x = false) (hx2 : isJsSpace x = false) (hx3 : x ≠ braceL) :
    matchClassAt ('.' :: c :: (cs ++ x :: r)) = none := by
  rw [matchClassAt, if_pos ⟨rfl, hstart⟩]
  obtain ⟨ht, hd⟩ := takeWhile_all_append cs x r hcs hx1
  dsimp only
  rw [ht, hd]
  rw [List.takeWhile_cons_of_neg (by simp [hx2]), List.dropWhile_cons_of_neg (by simp [hx2])]
  show (if x = braceL then
      some ((c :: cs).asString, 1 + (1 + cs.length) + ([] : List Char).length + 1)
    else none) = none
  rw [if_neg hx3]

theorem sbcAux_no_slash : ∀ l : List Char, '/' ∉ l → sbcAux false l = l
  | [] => fun _ => by simp [sbcAux]
  | [c] => fun _ => by simp [sbcAux]
  | a :: b :: t => fun h => by
    rw [sbcAux, if_neg (fun hc => h (by simp [hc.1]))]
    rw [sbcAux_no_slash (b :: t) (fun hc => h (by simp at hc ⊢; tauto))]

theorem rlcAux_no_slash : ∀ l : List Char, '/' ∉ l → rlcAux false l = l
  | [] => fun _ => by simp [rlcAux]
  | [c] => fun _ => by simp [rlcAux]
  | a :: b :: t => fun h => by
    rw [rlcAux, if_neg (fun hc => h (by simp [hc.1]))]
    rw [rlcAux_no_slash (b :: t) (fun hc => h (by simp at hc ⊢; tauto))]

theorem removeComments_no_slash (l : List Char) (h : '/' ∉ l) : removeComments l = l := by
  unfold removeComments rlcAll sbc
  rw [sbcAux_no_slash l h, rlcAux_no_slash l h]

theorem validIdentL_not_mem (l : List Char) (h : validIdentL l = true) (c : Char)
    (hc1 : isIdentChar c = false) (hc2 : isIdentStart c = false) : c ∉ l := by
  cases l with
  | nil => simp
  | cons c0 cs =>
    simp only [validIdentL, Bool.and_eq_true, List.all_eq_true] at h
    intro hmem
    rcases List.mem_cons.mp hmem with rfl | hmem2
    · rw [h.1] at hc2; simp at hc2
    · have := h.2 c hmem2
      rw [this] at hc1
      simp at hc1

theorem trimL_no_space_ends (a : Char) (m : List Char) (b : Char)
    (ha : isJsSpace a = false) (hb : isJsSpace b = false) :
    trimL (a :: (m ++ [b])) = a :: (m ++ [b]) := by
  unfold trimL
  rw [List.dropWhile_cons_of_neg (by simp [ha])]
  rw [show (a :: (m ++ [b])).reverse = b :: (m.reverse ++ [a]) by simp]
  rw [List.dropWhile_cons_of_neg (by simp [hb])]
  simp

theorem lnAux_pos (ms : Nat) :
    ∀ (lines : List (List Char)) (cc i : Nat), 1 ≤ lnAux ms lines cc i
  | [], _, _ => by simp [lnAux]
  | ln :: rest, cc, i => by
    rw [lnAux]
    split
    · omega
    · exact lnAux_pos ms rest _ _

theorem braceScan_pair (prev : Char) (pos : Nat) :
    braceScan [braceL, braceR] prev 0 false '\x00' pos = some (pos + 1) := by
  rfl

theorem identStart_identChar {c : Char} (h : isIdentStart c = true) : isIdentChar c = true := by
  simp only [isIdentStart, Bool.or_eq_true, beq_iff_eq] at h
  simp only [isIdentChar, Char.isAlphanum, Bool.or_eq_true, beq_iff_eq]
  tauto

theorem validIdentL_chars {l : List Char} (h : validIdentL l = true) :
    ∀ c ∈ l, isIdentChar c = true := by
  cases l with
  | nil => simp
  | cons c0 cs =>
    simp only [validIdentL, Bool.and_eq_true, List.all_eq_true] at h
    intro c hc
    rcases List.mem_cons.mp hc with rfl | hc2
    · exact identStart_identChar h.1
    · exact h.2 c hc2

theorem scanClasses_nil (i : Nat) : scanClasses [] i = [] := rfl

/-- C2 amended: a compound selector `.a.b` followed by its block is treated
as a match on the *last* class token `b` — the one adjacent to the brace —
not on the first token `a`: `b` appears in the returned `classes` and
`allOccurrences` maps and `a` appears in neither. -/
theorem claim_C2_amended (ca cb : Char) (csa csb : List Char)
    (ha : validIdentL (ca :: csa) = true) (hb : validIdentL (cb :: csb) = true)
    (hne : (ca :: csa).asString ≠ (cb :: csb).asString) :
    ((mGet (extractClasses ('.' :: (ca :: csa) ++ '.' :: (cb :: csb) ++ [braceL, braceR])).classes
        (cb :: csb).asString).isSome = true)
    ∧ mGet (extractClasses ('.' :: (ca :: csa) ++ '.' :: (cb :: csb) ++ [braceL, braceR])).classes
        (ca :: csa).asString = none
    ∧ mGet (extractClasses ('.' :: (ca :: csa) ++ '.' :: (cb :: csb)
        ++ [braceL, braceR])).allOccurrences (ca :: csa).asString = none := by
  have haS : isIdentStart ca = true := by
    simp only [validIdentL, Bool.and_eq_true] at ha; exact ha.1
  have haC : ∀ c ∈ csa, isIdentChar c = true := by
    intro c hc
    exact validIdentL_chars ha c (by simp [hc])
  have hbS : isIdentStart cb = true := by
    simp only [validIdentL, Bool.and_eq_true] at hb; exact hb.1
  have hbC : ∀ c ∈ csb, isIdentChar c = true := by
    intro c hc
    exact validIdentL_chars hb c (by simp [hc])
  have hnodotA : ∀ c ∈ (ca :: csa), c ≠ '.' := by
    intro c hc he
    exact validIdentL_not_mem _ ha '.' (by decide) (by decide) (he ▸ hc)
  have hsA : '/' ∉ (ca :: csa) := validIdentL_not_mem _ ha '/' (by decide) (by decide)
  have hsB : '/' ∉ (cb :: csb) := validIdentL_not_mem _ hb '/' (by decide) (by decide)
  have hnoslash :
      '/' ∉ ('.' :: (ca :: csa) ++ '.' :: (cb :: csb) ++ [braceL, braceR]) := by
    intro hmem
    simp only [List.cons_append, List.mem_cons, List.mem_append, List.mem_singleton] at hmem
    have d1 : ¬(('/' : Char) = '.') := by decide
    have d2 : ¬(('/' : Char) = braceL) := by decide
    have d3 : ¬(('/' : Char) = braceR) := by decide
    have d4 : ('/' : Char) ∈ (ca :: csa) → False := fun h => hsA h
    have d5 : ('/' : Char) ∈ (cb :: csb) → False := fun h => hsB h
    simp only [List.mem_cons] at d4 d5
    tauto
  have hassoc :
      ('.' :: (ca :: csa) ++ '.' :: (cb :: csb) ++ [braceL, braceR]) =
        '.' :: (((ca :: csa) ++ '.' :: (cb :: csb) ++ [braceL]) ++ [braceR]) := by
    simp
  have htrim :
      trimL ('.' :: (ca :: csa) ++ '.' :: (cb :: csb) ++ [braceL, braceR]) =
        ('.' :: (ca :: csa) ++ '.' :: (cb :: csb) ++ [braceL, braceR]) := by
    rw [hassoc]
    exact trimL_no_space_ends '.' _ braceR (by decide) (by decide)
  have hrc :
      removeComments ('.' :: (ca :: csa) ++ '.' :: (cb :: csb) ++ [braceL, braceR]) =
        ('.' :: (ca :: csa) ++ '.' :: (cb :: csb) ++ [braceL, braceR]) :=
    removeComments_no_slash _ hnoslash
  -- the single class match of the scan
  have hm1 :
      matchClassAt ('.' :: (ca :: csa) ++ '.' :: (cb :: csb) ++ [braceL, braceR]) = none := by
    have hshape :
        ('.' :: (ca :: csa) ++ '.' :: (cb :: csb) ++ [braceL, braceR]) =
          '.' :: ca :: (csa ++ '.' :: ((cb :: csb) ++ [braceL, braceR])) := by
      simp
    rw [hshape]
    exact matchClassAt_ident_nobrace ca csa '.' _ haS haC (by decide) (by decide) (by decide)
  have hm2 :
      matchClassAt ('.' :: ((cb :: csb) ++ [braceL, braceR])) =
        some ((cb :: csb).asString, csb.length + 3) := by
    have hshape :
        ('.' :: ((cb :: csb) ++ [braceL, braceR])) =
          '.' :: cb :: (csb ++ braceL :: [braceR]) := by
      simp
    rw [hshape]
    exact matchClassAt_ident cb csb [braceR] hbS hbC
  have hscan :
      scanClasses ('.' :: (ca :: csa) ++ '.' :: (cb :: csb) ++ [braceL, braceR]) 0 =
        [((cb :: csb).asString, 1 + (ca :: csa).length, csb.length + 3)] := by
    have hshape :
        ('.' :: (ca :: csa) ++ '.' :: (cb :: csb) ++ [braceL, braceR]) =
          '.' :: ((ca :: csa) ++ '.' :: ((cb :: csb) ++ [braceL, braceR])) := by
      simp
    have hm1b :
        matchClassAt ('.' :: ((ca :: csa) ++ '.' :: ((cb :: csb) ++ [braceL, braceR]))) =
          none := by
      rw [← hshape]; exact hm1
    rw [hshape, scanClasses_cons, hm1b]
    dsimp only
    rw [scanClasses_skip _ _ _ hnodotA]
    rw [scanClasses_cons, hm2]
    dsimp only
    have hdrop :
        ((cb :: csb) ++ [braceL, braceR]).drop (csb.length + 3 - 1) = [braceR] := by
      have heq : (cb :: csb) ++ [braceL, braceR] = (cb :: (csb ++ [braceL])) ++ [braceR] := by
        simp
      rw [heq]
      rw [List.drop_left' (by simp)]
    rw [hdrop]
    rw [scanClasses_cons]
    rw [show matchClassAt [braceR] = none by simp [matchClassAt]]
    simp [scanClasses_nil]
  have hdefext :
      extractClassDefinition ('.' :: (ca :: csa) ++ '.' :: (cb :: csb) ++ [braceL, braceR])
          (1 + (ca :: csa).length) (1 + (ca :: csa).length + (csb.length + 3) - 1) =
        some ('.' :: ((cb :: csb) ++ [braceL, braceR])) := by
    have hlen :
        ('.' :: (ca :: csa) ++ '.' :: (cb :: csb) ++ [braceL, braceR]).length =
          csa.length + csb.length + 6 := by
      simp
      omega
    have hbs : 1 + (ca :: csa).length + (csb.length + 3) - 1 = csa.length + csb.length + 4 := by
      simp
      omega
    rw [hbs]
    have hdrop1 :
        ('.' :: (ca :: csa) ++ '.' :: (cb :: csb) ++ [braceL, braceR]).drop
          (csa.length + csb.length + 4) = [braceL, braceR] := by
      have hsplit :
          ('.' :: (ca :: csa) ++ '.' :: (cb :: csb) ++ [braceL, braceR]) =
            ('.' :: (ca :: csa) ++ '.' :: (cb :: csb)) ++ [braceL, braceR] := by
        simp
      rw [hsplit]
      rw [List.drop_left' (by simp; try omega)]
    unfold extractClassDefinition
    rw [if_neg (by rw [hlen]; omega)]
    rw [hdrop1]
    rw [show List.findIdx? (fun c => c == braceL) [braceL, braceR] = some 0 from rfl]
    dsimp only
    simp only [Nat.add_zero]
    rw [hdrop1]
    rw [braceScan_pair]
    dsimp only
    have htake :
        ('.' :: (ca :: csa) ++ '.' :: (cb :: csb) ++ [braceL, braceR]).take
          (csa.length + csb.length + 4 + 1 + 1) =
          ('.' :: (ca :: csa) ++ '.' :: (cb :: csb) ++ [braceL, braceR]) := by
      have heq2 : csa.length + csb.length + 4 + 1 + 1 =
          ('.' :: (ca :: csa) ++ '.' :: (cb :: csb) ++ [braceL, braceR]).length := by
        rw [hlen]
      rw [heq2, List.take_length]
    rw [htake]
    have hdrop2 :
        ('.' :: (ca :: csa) ++ '.' :: (cb :: csb) ++ [braceL, braceR]).drop
          (1 + (ca :: csa).length) = '.' :: ((cb :: csb) ++ [braceL, braceR]) := by
      have hsplit :
          ('.' :: (ca :: csa) ++ '.' :: (cb :: csb) ++ [braceL, braceR]) =
            ('.' :: (ca :: csa)) ++ ('.' :: ((cb :: csb) ++ [braceL, braceR])) := by
        simp
      rw [hsplit]
      rw [List.drop_left' (by simp; try omega)]
    rw [hdrop2]
    have htrim2 :
        trimL ('.' :: ((cb :: csb) ++ [braceL, braceR])) =
          '.' :: ((cb :: csb) ++ [braceL, braceR]) := by
      have hshape : ('.' :: ((cb :: csb) ++ [braceL, braceR])) =
          '.' :: (((cb :: csb) ++ [braceL]) ++ [braceR]) := by simp
      rw [hshape]
      exact trimL_no_space_ends '.' _ braceR (by decide) (by decide)
    rw [htrim2]
  have hfind :
      findClassMatches ('.' :: (ca :: csa) ++ '.' :: (cb :: csb) ++ [braceL, braceR]) =
        [⟨(cb :: csb).asString, '.' :: ((cb :: csb) ++ [braceL, braceR]),
          lineNumberOfIndex ('.' :: (ca :: csa) ++ '.' :: (cb :: csb) ++ [braceL, braceR])
            (1 + (ca :: csa).length), 1 + (ca :: csa).length⟩] := by
    unfold findClassMatches
    rw [hscan]
    simp only [List.filterMap_cons, List.filterMap_nil]
    rw [hdefext]
    dsimp only
    rw [if_neg (by simp)]
  -- assemble extractClasses
  have hguard :
      ¬(('.' :: (ca :: csa) ++ '.' :: (cb :: csb) ++ [braceL, braceR]) = [] ∨
        trimL ('.' :: (ca :: csa) ++ '.' :: (cb :: csb) ++ [braceL, braceR]) = []) := by
    rw [htrim]
    simp
  have hex :
      extractClasses ('.' :: (ca :: csa) ++ '.' :: (cb :: csb) ++ [braceL, braceR]) =
        (findClassMatches ('.' :: (ca :: csa) ++ '.' :: (cb :: csb)
          ++ [braceL, braceR])).foldl extractStep ⟨[], []⟩ := by
    unfold extractClasses
    rw [if_neg hguard, hrc]
  rw [hex, hfind]
  simp only [List.foldl_cons, List.foldl_nil]
  unfold extractStep
  dsimp only
  have hln : 1 ≤ lineNumberOfIndex ('.' :: (ca :: csa) ++ '.' :: (cb :: csb) ++ [braceL, braceR])
      (1 + (ca :: csa).length) := lnAux_pos _ _ _ _
  have hvn : validClassName (cb :: csb).asString = true := hb
  unfold mkCSSClass
  rw [hvn]
  rw [if_neg (by simp)]
  rw [if_neg (by omega)]
  dsimp only
  have hBA : ¬((cb :: csb).asString = (ca :: csa).asString) := fun hc => hne hc.symm
  refine ⟨?_, ?_, ?_⟩
  · simp [mGet, mSet]
  · simp [mGet, mSet, hBA]
  · simp [mGet, mSet, hBA]

/-- C2 amended witness: the family instantiated at `a` and `b`. -/
theorem claim_C2_amended_witness :
    ((mGet (extractClasses ('.' :: (['a']) ++ '.' :: (['b']) ++ [braceL, braceR])).classes
        (['b'] : List Char).asString).isSome = true)
    ∧ mGet (extractClasses ('.' :: (['a']) ++ '.' :: (['b']) ++ [braceL, braceR])).classes
        (['a'] : List Char).asString = none
    ∧ mGet (extractClasses ('.' :: (['a']) ++ '.' :: (['b'])
        ++ [braceL, braceR])).allOccurrences (['a'] : List Char).asString = none :=
  claim_C2_amended 'a' 'b' [] [] (by decide) (by decide) (by decide)

/-! ## C6 support lemmas -/

theorem mGet_mem {α β : Type} [DecidableEq α] (m : List (α × β)) (k : α) (v : β)
    (h : mGet m k = some v) : (k, v) ∈ m := by
  induction m with
  | nil => simp [mGet] at h
  | cons e t ih =>
    by_cases he : e.1 = k
    · simp only [mGet, if_pos he, Option.some.injEq] at h
      have hev : (k, v) = e := by
        cases e
        simp_all
      rw [hev]
      exact List.mem_cons_self _ _
    · simp only [mGet, if_neg he] at h
      exact List.mem_cons_of_mem _ (ih h)

theorem mGet_none_of_not_mem {α β : Type} [DecidableEq α] (m : List (α × β)) (k : α)
    (h : k ∉ mKeys m) : mGet m k = none := by
  induction m with
  | nil => simp [mGet]
  | cons e t ih =>
    simp only [mKeys, List.map_cons, List.mem_cons, not_or] at h
    have he : ¬ e.1 = k := fun hc => h.1 hc.symm
    simp only [mGet, if_neg he]
    exact ih h.2

theorem mGet_of_mem_nodup {α β : Type} [DecidableEq α] (m : List (α × β)) (k : α) (v : β)
    (hm : (k, v) ∈ m) (hnd : (mKeys m).Nodup) : mGet m k = some v := by
  induction m with
  | nil => simp at hm
  | cons e t ih =>
    simp only [mKeys, List.map_cons, List.nodup_cons] at hnd
    rcases List.mem_cons.mp hm with rfl | hm2
    · simp [mGet]
    · have hk : e.1 ≠ k := by
        intro hc
        exact hnd.1 (by
          simp only [mKeys, List.mem_map]
          exact ⟨(k, v), hm2, hc.symm ▸ rfl⟩)
      simp only [mGet, if_neg hk]
      exact ih hm2 hnd.2

theorem mem_mSet {α β : Type} [DecidableEq α] (m : List (α × β)) (k : α) (v : β) :
    ∀ e ∈ mSet m k v, (e.1 = k ∧ e.2 = v) ∨ e ∈ m := by
  induction m with
  | nil => intro e he; simp [mSet] at he; left; simp [he]
  | cons e0 t ih =>
    intro e he
    by_cases h0 : e0.1 = k
    · simp only [mSet, if_pos h0, List.mem_cons] at he
      rcases he with rfl | he2
      · left; exact ⟨h0, rfl⟩
      · right; exact List.mem_cons_of_mem _ he2
    · simp only [mSet, if_neg h0, List.mem_cons] at he
      rcases he with rfl | he2
      · right; simp
      · rcases ih e he2 with h | h
        · left; exact h
        · right; exact List.mem_cons_of_mem _ h

theorem mkCSSClass_ok {name sf : String} {ln : Nat} {props : List (String × String)}
    {fd : String} {c : CSSClass}
    (h : mkCSSClass name sf ln props fd = .ok c) :
    c = ⟨name, sf, ln, props, fd⟩ ∧ validClassName name = true ∧ 1 ≤ ln := by
  unfold mkCSSClass at h
  split at h
  · simp at h
  · split at h
    · simp at h
    · next h1 h2 =>
      simp only [Except.ok.injEq] at h
      refine ⟨h.symm, ?_, by omega⟩
      simpa using h1

theorem extractStep_inv (r : ExtractResult) (m : ClassMatch) (h : ExtractInv r) :
    ExtractInv (extractStep r m) := by
  obtain ⟨hsync, hhead, hkc, hko, hnc, hno⟩ := h
  unfold extractStep
  cases hmk : mkCSSClass m.className "" m.lineNumber (extractProperties m.definition)
      m.definition.asString with
  | error e => exact ⟨hsync, hhead, hkc, hko, hnc, hno⟩
  | ok c =>
    obtain ⟨hc, hvn, hln⟩ := mkCSSClass_ok hmk
    have hcname : c.name = m.className := by rw [hc]
    have hcvalid : validC c := by
      constructor
      · rw [hcname]; exact hvn
      · rw [hc]; exact hln
    dsimp only
    by_cases hhas : (mGet r.classes m.className).isSome
    · rw [if_pos hhas]
      have hocc : (mGet r.allOccurrences m.className).isSome := (hsync _).mp hhas
      obtain ⟨l, hl⟩ := Option.isSome_iff_exists.mp hocc
      rw [hl]
      refine ⟨?_, ?_, hkc, ?_, hnc, mKeys_mSet_nodup _ _ _ hno⟩
      · intro k
        by_cases hk : m.className = k
        · subst hk
          rw [mGet_mSet_self]
          simp only [Option.isSome_some, iff_true]
          exact hhas
        · rw [mGet_mSet_ne _ _ _ _ hk]
          exact hsync k
      · intro k l2 hl2
        by_cases hk : m.className = k
        · subst hk
          rw [mGet_mSet_self] at hl2
          obtain ⟨c0, t2, hlt, hcls⟩ := hhead _ l hl
          have hl2e : l2 = l ++ [c] := by
            injection hl2 with h2
            exact h2.symm
          refine ⟨c0, t2 ++ [c], ?_, hcls⟩
          rw [hl2e, hlt]
          simp
        · rw [mGet_mSet_ne _ _ _ _ hk] at hl2
          exact hhead k l2 hl2
      · intro e he
        rcases mem_mSet _ _ _ e he with ⟨he1, he2⟩ | hmem
        · intro c2 hc2
          rw [he2] at hc2
          rcases List.mem_append.mp hc2 with hc2l | hc2r
          · have := hko (m.className, l) (mGet_mem _ _ _ hl) c2 hc2l
            exact ⟨he1.trans this.1, this.2⟩
          · simp only [List.mem_singleton] at hc2r
            subst hc2r
            exact ⟨he1.trans hcname.symm, hcvalid⟩
        · exact hko e hmem
    · rw [if_neg hhas]
      have hoccn : mGet r.allOccurrences m.className = none := by
        cases hx : mGet r.allOccurrences m.className with
        | none => rfl
        | some l =>
          exact absurd ((hsync _).mpr (by simp [hx])) hhas
      rw [hoccn]
      have hclsn : mGet r.classes m.className = none := by
        cases hx : mGet r.classes m.className with
        | none => rfl
        | some c0 => exact absurd (by simp [hx]) hhas
      refine ⟨?_, ?_, ?_, ?_, mKeys_mSet_nodup _ _ _ hnc, mKeys_mSet_nodup _ _ _ hno⟩
      · intro k
        by_cases hk : m.className = k
        · subst hk
          rw [mGet_mSet_self, mGet_mSet_self]
          simp
        · rw [mGet_mSet_ne _ _ _ _ hk, mGet_mSet_ne _ _ _ _ hk]
          exact hsync k
      · intro k l2 hl2
        by_cases hk : m.className = k
        · subst hk
          rw [mGet_mSet_self] at hl2
          have hl2e : l2 = [c] := by
            injection hl2 with h2
            exact h2.symm
          exact ⟨c, [], hl2e, mGet_mSet_self _ _ _⟩
        · rw [mGet_mSet_ne _ _ _ _ hk] at hl2
          rw [mGet_mSet_ne _ _ _ _ hk]
          exact hhead k l2 hl2
      · intro e he
        rcases mem_mSet _ _ _ e he with ⟨he1, he2⟩ | hmem
        · rw [he2]
          exact ⟨he1.trans hcname.symm, hcvalid⟩
        · exact hkc e hmem
      · intro e he
        rcases mem_mSet _ _ _ e he with ⟨he1, he2⟩ | hmem
        · intro c2 hc2
          rw [he2] at hc2
          simp only [List.mem_singleton] at hc2
          subst hc2
          exact ⟨he1.trans hcname.symm, hcvalid⟩
        · exact hko e hmem

theorem extractClasses_inv (content : List Char) : ExtractInv (extractClasses content) := by
  have hempty : ExtractInv ⟨[], []⟩ :=
    ⟨by simp [mGet], by simp [mGet], by simp, by simp, by simp [mKeys], by simp [mKeys]⟩
  unfold extractClasses
  split
  · exact hempty
  · have hfold : ∀ (ms : List ClassMatch) (r : ExtractResult), ExtractInv r →
        ExtractInv (ms.foldl extractStep r) := by
      intro ms
      induction ms with
      | nil => intro r h; exact h
      | cons mm rest ih => intro r h; exact ih _ (extractStep_inv r mm h)
    exact hfold _ _ hempty

/-! ## C6 support: the restamping pass of `parseCSSContent` -/

theorem restampClass_ok {c : CSSClass} {fp : String} (h : validC c) :
    restampClass c fp = .ok (stampC c fp) := by
  unfold restampClass mkCSSClass stampC
  rw [h.1]
  rw [if_neg (by simp)]
  rw [if_neg (Nat.not_lt.mpr h.2)]

theorem foldl_congr_mem {α β : Type} (L : List α) (f g : β → α → β)
    (h : ∀ b, ∀ a ∈ L, f b a = g b a) : ∀ acc, L.foldl f acc = L.foldl g acc := by
  induction L with
  | nil => intro acc; rfl
  | cons a t ih =>
    intro acc
    rw [List.foldl_cons, List.foldl_cons, h acc a (by simp)]
    exact ih (fun b a2 ha2 => h b a2 (by simp [ha2])) _

theorem mGet_foldl_mSet_skip {α β γ : Type} [DecidableEq α]
    (keyf : γ → α) (valf : γ → β) :
    ∀ (L : List γ) (acc : List (α × β)) (k : α), (∀ e ∈ L, keyf e ≠ k) →
      mGet (L.foldl (fun a e => mSet a (keyf e) (valf e)) acc) k = mGet acc k := by
  intro L
  induction L with
  | nil => intro acc k _; rfl
  | cons e t ih =>
    intro acc k h
    rw [List.foldl_cons]
    rw [ih _ k (fun e2 he2 => h e2 (by simp [he2]))]
    exact mGet_mSet_ne _ _ _ _ (h e (by simp))

theorem mGet_foldl_mSet_hit {α β : Type} [DecidableEq α] (valf : α × β → β)
    (m : List (α × β)) (hnd : (mKeys m).Nodup) (acc : List (α × β)) (k : α) (v : β)
    (hm : (k, v) ∈ m) :
    mGet (m.foldl (fun a e => mSet a e.1 (valf e)) acc) k = some (valf (k, v)) := by
  obtain ⟨L1, L2, rfl⟩ := List.append_of_mem hm
  have hnd2 : k ∉ mKeys L1 ∧ k ∉ mKeys L2 := by
    simp only [mKeys, List.map_append, List.map_cons] at hnd
    have h1 := List.Nodup.of_append_left hnd
    have h2 := List.Nodup.of_append_right hnd
    constructor
    · intro hc
      have := (List.nodup_append.mp hnd).2.2
      exact this hc (by simp)
    · simp only [List.nodup_cons] at h2
      intro hc
      exact h2.1 hc
  rw [List.foldl_append, List.foldl_cons]
  rw [mGet_foldl_mSet_skip Prod.fst valf L2 _ k
    (fun e he hc => hnd2.2 (by simp only [mKeys, List.mem_map]; exact ⟨e, he, hc⟩))]
  exact mGet_mSet_self _ _ _

theorem restampClasses_ok (m : List (String × CSSClass)) (fp : String)
    (hv : ∀ e ∈ m, validC e.2) :
    restampClasses m fp =
      .ok (m.foldl (fun a e => mSet a e.2.name (stampC e.2 fp)) m) := by
  unfold restampClasses
  suffices hgen : ∀ (L : List (String × CSSClass)) (acc : List (String × CSSClass)),
      (∀ e ∈ L, validC e.2) →
      (L.foldlM (fun acc e => do
        let c2 ← restampClass e.2 fp
        pure (mSet acc e.2.name c2)) acc : Except String _) =
      .ok (L.foldl (fun a e => mSet a e.2.name (stampC e.2 fp)) acc) by
    exact hgen m m hv
  intro L
  induction L with
  | nil => intro acc _; rfl
  | cons e t ih =>
    intro acc h
    rw [List.foldlM_cons, restampClass_ok (h e (by simp))]
    show (t.foldlM _ (mSet acc e.2.name (stampC e.2 fp)) : Except String _) = _
    rw [ih _ (fun e2 he2 => h e2 (by simp [he2]))]
    rw [List.foldl_cons]

theorem mapM_restamp_ok (fp : String) :
    ∀ (l : List CSSClass), (∀ c ∈ l, validC c) →
      (l.mapM (fun c => restampClass c fp) : Except String _) =
        .ok (l.map (fun c => stampC c fp)) := by
  intro l
  induction l with
  | nil => intro _; rfl
  | cons c t ih =>
    intro h
    rw [List.mapM_cons, restampClass_ok (h c (by simp)),
      ih (fun c2 hc2 => h c2 (by simp [hc2]))]
    rfl

theorem restampOccs_ok (m : List (String × List CSSClass)) (fp : String)
    (hv : ∀ e ∈ m, ∀ c ∈ e.2, validC c) :
    restampOccs m fp =
      .ok (m.foldl (fun a e => mSet a e.1 (e.2.map (fun c => stampC c fp)))
        ([] : List (String × List CSSClass))) := by
  unfold restampOccs
  suffices hgen : ∀ (L : List (String × List CSSClass))
      (acc : List (String × List CSSClass)),
      (∀ e ∈ L, ∀ c ∈ e.2, validC c) →
      (L.foldlM (fun acc e => do
        let l2 ← e.2.mapM (fun c => restampClass c fp)
        pure (mSet acc e.1 l2)) acc : Except String _) =
      .ok (L.foldl (fun a e => mSet a e.1 (e.2.map (fun c => stampC c fp))) acc) by
    exact hgen m [] hv
  intro L
  induction L with
  | nil => intro acc _; rfl
  | cons e t ih =>
    intro acc h
    rw [List.foldlM_cons, mapM_restamp_ok fp e.2 (h e (by simp))]
    show (t.foldlM _ (mSet acc e.1 (e.2.map (fun c => stampC c fp))) : Except String _) = _
    rw [ih _ (fun e2 he2 => h e2 (by simp [he2]))]
    rw [List.foldl_cons]

theorem restampClasses_get (m : List (String × CSSClass)) (fp : String)
    (hkeys : ∀ e ∈ m, e.1 = e.2.name) (hv : ∀ e ∈ m, validC e.2)
    (hnd : (mKeys m).Nodup) :
    ∃ m2, restampClasses m fp = .ok m2
      ∧ ∀ k, mGet m2 k = (mGet m k).map (fun c => stampC c fp) := by
  refine ⟨_, restampClasses_ok m fp hv, ?_⟩
  have hfold :
      m.foldl (fun a e => mSet a e.2.name (stampC e.2 fp)) m =
        m.foldl (fun a e => mSet a e.1 (stampC e.2 fp)) m := by
    refine foldl_congr_mem m _ _ (fun b e he => ?_) m
    rw [hkeys e he]
  rw [hfold]
  intro k
  by_cases hk : k ∈ mKeys m
  · simp only [mKeys, List.mem_map] at hk
    obtain ⟨e, he, hke⟩ := hk
    obtain ⟨kk, v⟩ := e
    simp only at hke
    subst hke
    rw [mGet_foldl_mSet_hit (fun e => stampC e.2 fp) m hnd m _ v he]
    rw [mGet_of_mem_nodup m _ v he hnd]
    rfl
  · rw [mGet_foldl_mSet_skip Prod.fst (fun e => stampC e.2 fp) m m k
      (fun e he hc => hk (by simp only [mKeys, List.mem_map]; exact ⟨e, he, hc⟩))]
    rw [mGet_none_of_not_mem m k hk]
    rfl

theorem restampOccs_get (m : List (String × List CSSClass)) (fp : String)
    (hv : ∀ e ∈ m, ∀ c ∈ e.2, validC c) (hnd : (mKeys m).Nodup) :
    ∃ m2, restampOccs m fp = .ok m2
      ∧ ∀ k, mGet m2 k = (mGet m k).map (List.map (fun c => stampC c fp)) := by
  refine ⟨_, restampOccs_ok m fp hv, ?_⟩
  intro k
  by_cases hk : k ∈ mKeys m
  · simp only [mKeys, List.mem_map] at hk
    obtain ⟨e, he, hke⟩ := hk
    obtain ⟨kk, l⟩ := e
    simp only at hke
    subst hke
    rw [mGet_foldl_mSet_hit (fun e => e.2.map (fun c => stampC c fp)) m hnd [] _ l he]
    rw [mGet_of_mem_nodup m _ l he hnd]
    rfl
  · rw [mGet_foldl_mSet_skip Prod.fst (fun e => e.2.map (fun c => stampC c fp)) m [] k
      (fun e he hc => hk (by simp only [mKeys, List.mem_map]; exact ⟨e, he, hc⟩))]
    rw [mGet_none_of_not_mem m k hk]
    rfl

theorem mkCSSFile_ok {fp : String} {lm : Nat} {classes : List (String × CSSClass)}
    {raw : List Char} {occ : List (String × List CSSClass)} {cf : CSSFile}
    (h : mkCSSFile fp lm classes raw (some occ) = .ok cf) :
    cf.classes = classes ∧ cf.allClassOccurrences = occ := by
  unfold mkCSSFile at h
  split at h
  · simp at h
  · simp only [Except.ok.injEq] at h
    rw [← h]
    exact ⟨rfl, rfl⟩

/-- C6: first-occurrence invariant — in every `extractClasses` result each
name in `allOccurrences` maps to a non-empty list whose head is exactly the
entry in `classes` for that name, and the invariant survives
`parseCSSContent`'s restamping of `sourceFile` onto every stored class. -/
theorem claim_C6 :
    (∀ (content : List Char) (k : String) (l : List CSSClass),
      mGet (extractClasses content).allOccurrences k = some l →
      ∃ c t2, l = c :: t2 ∧ mGet (extractClasses content).classes k = some c)
    ∧ (∀ (fs : FS) (now : Nat) (content : List Char) (fp : String) (cf : CSSFile)
        (k : String) (l : List CSSClass),
      parseCSSContent fs now content fp = .ok cf →
      mGet cf.allClassOccurrences k = some l →
      ∃ c t2, l = c :: t2 ∧ mGet cf.classes k = some c) := by
  constructor
  · intro content k l hl
    exact (extractClasses_inv content).2.1 k l hl
  · intro fs now content fp cf k l hpc hl
    obtain ⟨hsync, hhead, hkc, hko, hnc, hno⟩ := extractClasses_inv content
    obtain ⟨m2, hm2, hm2get⟩ := restampClasses_get (extractClasses content).classes fp
      (fun e he => (hkc e he).1) (fun e he => (hkc e he).2) hnc
    obtain ⟨o2, ho2, ho2get⟩ := restampOccs_get (extractClasses content).allOccurrences fp
      (fun e he c hc => (hko e he c hc).2) hno
    unfold parseCSSContent at hpc
    dsimp only at hpc
    rw [hm2, ho2] at hpc
    dsimp only [Bind.bind, Except.bind] at hpc
    obtain ⟨hcf1, hcf2⟩ := mkCSSFile_ok hpc
    rw [hcf2] at hl
    rw [ho2get k] at hl
    obtain ⟨l0, hl0, hl0map⟩ := Option.map_eq_some'.mp hl
    obtain ⟨c, t2, hlt, hcls⟩ := hhead k l0 hl0
    refine ⟨stampC c fp, t2.map (fun c => stampC c fp), ?_, ?_⟩
    · rw [← hl0map, hlt]
      rfl
    · rw [hcf1, hm2get k, hcls]
      rfl

/-- C6 witness: the single-class stylesheet instantiates the invariant. -/
theorem claim_C6_witness :
    ∃ c t2,
      ([⟨"x", "", 1, [("color", "red")], ".x\x7bcolor:red\x7d"⟩] : List CSSClass) = c :: t2
      ∧ mGet (extractClasses cssContentA).classes "x" = some c :=
  claim_C6.1 cssContentA "x" _ (by decide)

/-! ## `indexComponent` loop lemmas (for C3 and C7) -/

theorem except_bind_ok {ε α β : Type} {x : Except ε α} {f : α → Except ε β} {b : β}
    (h : x >>= f = .ok b) : ∃ a, x = .ok a ∧ f a = .ok b := by
  cases x with
  | error e => exact absurd h (by simp [Bind.bind, Except.bind])
  | ok a => exact ⟨a, rfl, by simpa [Bind.bind, Except.bind] using h⟩

theorem mkCSSFile_lastModified {fp : String} {lm : Nat}
    {cls : List (String × CSSClass)} {raw : List Char}
    {occ : Option (List (String × List CSSClass))} {cf : CSSFile}
    (h : mkCSSFile fp lm cls raw occ = .ok cf) : cf.lastModified = lm := by
  unfold mkCSSFile at h
  split at h
  · exact Except.noConfusion h
  · injection h with h2
    rw [← h2]

theorem parseCSSContent_lastModified {fs : FS} {now : Nat} {content : List Char}
    {fp : String} {cf : CSSFile}
    (h : parseCSSContent fs now content fp = .ok cf) :
    cf.lastModified = (match mGet fs fp with | some f => f.mtime | none => now) := by
  unfold parseCSSContent at h
  dsimp only at h
  obtain ⟨cls, h1, h2⟩ := except_bind_ok h
  obtain ⟨occ, h3, h4⟩ := except_bind_ok h2
  exact mkCSSFile_lastModified h4

theorem parseCSSFile_ok_mtime {fs : FS} {now : Nat} {p : String} {cf : CSSFile}
    (h : parseCSSFile fs now p = .ok cf) :
    ∃ f, mGet fs p = some f ∧ cf.lastModified = f.mtime := by
  unfold parseCSSFile at h
  cases hg : mGet fs p with
  | none => rw [hg] at h; exact Except.noConfusion h
  | some f =>
      rw [hg] at h
      refine ⟨f, rfl, ?_⟩
      rw [parseCSSContent_lastModified h, hg]

theorem isStale_congr {fs : FS} {c1 c2 : List (String × CSSFile)} {p : String}
    (h : mGet c1 p = mGet c2 p) : isStale fs c1 p = isStale fs c2 p := by
  unfold isStale
  rw [h]

theorem isStale_false_of_fresh {fs : FS} {now : Nat} {cache : List (String × CSSFile)}
    {p : String} {cf : CSSFile} (hp : parseCSSFile fs now p = .ok cf)
    (hc : mGet cache p = some cf) : isStale fs cache p = false := by
  obtain ⟨f, hf, hm⟩ := parseCSSFile_ok_mtime hp
  unfold isStale
  rw [hc, hf]
  dsimp only
  rw [hm]
  simp

theorem fileObtainable_evolved {fs : FS} {now : Nat}
    {cache0 cache : List (String × CSSFile)}
    (h : CacheEvolved fs now cache0 cache) (p : String) :
    fileObtainable fs now cache p = fileObtainable fs now cache0 p := by
  rcases h p with heq | ⟨cf, hok, hget⟩
  · unfold fileObtainable
    rw [heq, isStale_congr heq]
  · have hL : fileObtainable fs now cache p = true := by
      unfold fileObtainable
      rw [hget, isStale_false_of_fresh hok hget]
      rfl
    have hR : fileObtainable fs now cache0 p = true := by
      unfold fileObtainable
      split
      · rw [hok]; rfl
      · rfl
    rw [hL, hR]

theorem cacheEvolved_set {fs : FS} {now : Nat} {cache0 cache : List (String × CSSFile)}
    {p : String} {cf : CSSFile} (h : CacheEvolved fs now cache0 cache)
    (hok : parseCSSFile fs now p = .ok cf) :
    CacheEvolved fs now cache0 (mSet cache p cf) := by
  intro q
  by_cases hq : p = q
  · subst hq
    exact Or.inr ⟨cf, hok, mGet_mSet_self _ _ _⟩
  · rw [mGet_mSet_ne _ _ _ _ hq]
    exact h q

theorem indexFileStep_spec (fs : FS) (now : Nat) (cp : String)
    (cache0 : List (String × CSSFile))
    (acc : EngineState × List (String × CSSFile)) (p : String)
    (h : CacheEvolved fs now cache0 acc.1.fileCache) :
    CacheEvolved fs now cache0 (indexFileStep fs now cp acc p).1.fileCache
    ∧ (indexFileStep fs now cp acc p).1.index = acc.1.index
    ∧ mKeys (indexFileStep fs now cp acc p).2 =
        (if fileObtainable fs now cache0 p then
           if p ∈ mKeys acc.2 then mKeys acc.2 else mKeys acc.2 ++ [p]
         else mKeys acc.2) := by
  have hobt := fileObtainable_evolved h p
  unfold indexFileStep
  cases hg : mGet acc.1.fileCache p with
  | none =>
      have hO : fileObtainable fs now acc.1.fileCache p
          = exceptIsOk (parseCSSFile fs now p) := by
        unfold fileObtainable
        rw [hg]
        rfl
      cases hp : parseCSSFile fs now p with
      | error e =>
          dsimp only
          refine ⟨h, rfl, ?_⟩
          have hC : fileObtainable fs now cache0 p = false := by
            rw [← hobt, hO, hp]
            rfl
          rw [hC]
          simp
      | ok cf =>
          dsimp only
          have hC : fileObtainable fs now cache0 p = true := by
            rw [← hobt, hO, hp]
            rfl
          refine ⟨cacheEvolved_set h hp, rfl, ?_⟩
          rw [hC]
          show mKeys (mSet acc.2 p cf) = _
          rw [mKeys_mSet]
          simp
  | some cached =>
      dsimp only
      cases hst : isStale fs acc.1.fileCache p with
      | true =>
          have hO : fileObtainable fs now acc.1.fileCache p
              = exceptIsOk (parseCSSFile fs now p) := by
            unfold fileObtainable
            rw [hg, hst]
            rfl
          rw [if_pos rfl]
          cases hp : parseCSSFile fs now p with
          | error e =>
              dsimp only
              refine ⟨h, rfl, ?_⟩
              have hC : fileObtainable fs now cache0 p = false := by
                rw [← hobt, hO, hp]
                rfl
              rw [hC]
              simp
          | ok cf =>
              dsimp only
              have hC : fileObtainable fs now cache0 p = true := by
                rw [← hobt, hO, hp]
                rfl
              refine ⟨cacheEvolved_set h hp, rfl, ?_⟩
              rw [hC]
              show mKeys (mSet acc.2 p cf) = _
              rw [mKeys_mSet]
              simp
      | false =>
          have hO : fileObtainable fs now acc.1.fileCache p = true := by
            unfold fileObtainable
            rw [hg, hst]
            rfl
          rw [if_neg (by simp)]
          have hC : fileObtainable fs now cache0 p = true := by
            rw [← hobt, hO]
          refine ⟨h, rfl, ?_⟩
          rw [hC]
          show mKeys (mSet acc.2 p cached) = _
          rw [mKeys_mSet]
          simp

theorem indexLoop_spec (fs : FS) (now : Nat) (cp : String)
    (cache0 : List (String × CSSFile)) :
    ∀ (ps : List String) (acc : EngineState × List (String × CSSFile)),
      CacheEvolved fs now cache0 acc.1.fileCache →
      CacheEvolved fs now cache0 (ps.foldl (indexFileStep fs now cp) acc).1.fileCache
      ∧ (ps.foldl (indexFileStep fs now cp) acc).1.index = acc.1.index
      ∧ mKeys (ps.foldl (indexFileStep fs now cp) acc).2 =
          (ps.filter (fileObtainable fs now cache0)).foldl
            (fun a q => if q ∈ a then a else a ++ [q]) (mKeys acc.2)
  | [], acc, h => ⟨h, rfl, rfl⟩
  | p :: rest, acc, h => by
      obtain ⟨h1, h2, h3⟩ := indexFileStep_spec fs now cp cache0 acc p h
      obtain ⟨g1, g2, g3⟩ := indexLoop_spec fs now cp cache0 rest
        (indexFileStep fs now cp acc p) h1
      rw [List.foldl_cons, List.filter_cons]
      refine ⟨g1, g2.trans h2, ?_⟩
      cases hb : fileObtainable fs now cache0 p with
      | false =>
          rw [hb] at h3
          rw [if_neg (by simp)]
          rw [g3, h3]
          simp
      | true =>
          rw [hb] at h3
          rw [if_pos rfl, g3, List.foldl_cons]
          rw [h3]
          simp

theorem rcrm_fields (st : EngineState) (cp : String) :
    (removeComponentFromReverseMapping st cp).index = st.index
    ∧ (removeComponentFromReverseMapping st cp).fileCache = st.fileCache := by
  unfold removeComponentFromReverseMapping
  cases mGet st.index cp with
  | none => exact ⟨rfl, rfl⟩
  | some oldIndex => exact ⟨rfl, rfl⟩

theorem innerFold_get (k : String) :
    ∀ (cls all : List (String × CSSClass)),
      mGet (cls.foldl (fun all nc =>
          if (mGet all nc.1).isSome then all else mSet all nc.1 nc.2) all) k =
        if (mGet all k).isSome then mGet all k else mGet cls k
  | [], all => by
      cases h : mGet all k <;> simp [h, mGet]
  | (n1, n2) :: rest, all => by
      rw [List.foldl_cons]
      by_cases h1 : (mGet all n1).isSome = true
      · rw [if_pos h1, innerFold_get k rest all]
        by_cases h2 : (mGet all k).isSome = true
        · rw [if_pos h2, if_pos h2]
        · rw [if_neg h2, if_neg h2]
          have hne : n1 ≠ k := fun he => h2 (he ▸ h1)
          show mGet rest k = if n1 = k then some n2 else mGet rest k
          rw [if_neg hne]
      · rw [if_neg h1, innerFold_get k rest (mSet all n1 n2)]
        have hnone : mGet all n1 = none := by
          cases hA : mGet all n1 with
          | none => rfl
          | some v => exact absurd (by rw [hA]; rfl) h1
        by_cases hk : n1 = k
        · subst hk
          rw [mGet_mSet_self, hnone]
          show some n2 = if (none : Option CSSClass).isSome = true
              then (none : Option CSSClass) else mGet ((n1, n2) :: rest) n1
          rw [if_neg (by simp)]
          show some n2 = if n1 = n1 then some n2 else mGet rest n1
          rw [if_pos rfl]
        · rw [mGet_mSet_ne _ _ _ _ hk]
          by_cases h2 : (mGet all k).isSome = true
          · rw [if_pos h2, if_pos h2]
          · rw [if_neg h2, if_neg h2]
            show mGet rest k = if n1 = k then some n2 else mGet rest k
            rw [if_neg hk]

theorem outerFold_get (k : String) :
    ∀ (files : List (String × CSSFile)) (all : List (String × CSSClass)),
      mGet (files.foldl (fun all pf =>
          pf.2.classes.foldl (fun all nc =>
            if (mGet all nc.1).isSome then all else mSet all nc.1 nc.2) all) all) k =
        if (mGet all k).isSome then mGet all k
        else (files.filterMap (fun pf => mGet pf.2.classes k)).head?
  | [], all => by
      cases h : mGet all k <;> simp [h]
  | pf :: rest, all => by
      rw [List.foldl_cons, outerFold_get k rest _, innerFold_get k pf.2.classes all,
        List.filterMap_cons]
      by_cases h2 : (mGet all k).isSome = true
      · rw [if_pos h2, if_pos h2, if_pos h2]
      · rw [if_neg h2, if_neg h2]
        cases hc : mGet pf.2.classes k with
        | none => rfl
        | some v => rfl

theorem mGet_buildAllClasses (files : List (String × CSSFile)) (k : String) :
    mGet (buildAllClasses files) k =
      (files.filterMap (fun pf => mGet pf.2.classes k)).head? := by
  unfold buildAllClasses
  rw [outerFold_get k files []]
  rfl

/-- C3 counterexample: `indexComponent` does raise to its caller for the
empty component path — the `ComponentIndex` constructor's required-path
check throws even though every given CSS file parses. -/
theorem claim_C3_counterexample :
    (indexComponent fsValidOnly 0 emptyEngine "" ["/valid.css"]).2
      = some "Component path is required" := by
  rfl

/-- C3 (amended): for every NON-empty component path, `indexComponent`
completes without an error for every list of CSS file paths, and the
stored `ComponentIndex`'s `cssFiles` keys are exactly the first-occurrence
dedup of the obtainable paths (fresh cache hit, or successful parse) in
the given order — unparseable paths such as a missing file are skipped. -/
theorem claim_C3_amended (fs : FS) (now : Nat) (st : EngineState) (cp : String)
    (ps : List String) (hcp : cp ≠ "") :
    (indexComponent fs now st cp ps).2 = none
    ∧ ∃ ci, mGet (indexComponent fs now st cp ps).1.index cp = some ci
      ∧ mKeys ci.cssFiles = dedupFirst (ps.filter (fileObtainable fs now st.fileCache)) := by
  obtain ⟨h1, h2, h3⟩ := indexLoop_spec fs now cp st.fileCache ps
    (removeComponentFromReverseMapping st cp, [])
    (by
      show CacheEvolved fs now st.fileCache (removeComponentFromReverseMapping st cp).fileCache
      rw [(rcrm_fields st cp).2]
      exact fun q => Or.inl rfl)
  have hres : indexComponent fs now st cp ps =
      ({ (ps.foldl (indexFileStep fs now cp) (removeComponentFromReverseMapping st cp, [])).1 with
         index := mSet
           (ps.foldl (indexFileStep fs now cp) (removeComponentFromReverseMapping st cp, [])).1.index
           cp
           ⟨cp,
            (ps.foldl (indexFileStep fs now cp) (removeComponentFromReverseMapping st cp, [])).2,
            buildAllClasses
              (ps.foldl (indexFileStep fs now cp) (removeComponentFromReverseMapping st cp, [])).2⟩ },
       none) := by
    unfold indexComponent mkComponentIndex
    dsimp only
    rw [if_neg hcp]
  rw [hres]
  exact ⟨rfl, ⟨cp, _, _⟩, mGet_mSet_self _ _ _, h3⟩

/-- C3 witness: indexing `[valid.css, missing.css]` succeeds and the index
contains exactly `valid.css`. -/
theorem claim_C3_amended_witness :
    (indexComponent fsValidOnly 0 emptyEngine "/C.tsx" ["/valid.css", "/missing.css"]).2 = none
    ∧ ∃ ci, mGet (indexComponent fsValidOnly 0 emptyEngine "/C.tsx"
        ["/valid.css", "/missing.css"]).1.index "/C.tsx" = some ci
      ∧ mKeys ci.cssFiles = ["/valid.css"] := by
  obtain ⟨h1, ci, h2, h3⟩ := claim_C3_amended fsValidOnly 0 emptyEngine "/C.tsx"
    ["/valid.css", "/missing.css"] (by decide)
  exact ⟨h1, ci, h2, by rw [h3]; decide⟩

/-- C7: within one `indexComponent` call the CSS files are processed in
list order: the stored index's `cssFiles` keys are the first-occurrence
dedup of the obtainable paths in the given order, and `allClasses` resolves
every class name to the entry of the EARLIEST file in that order whose
`classes` map defines it (first writer wins on collisions), while each
file's own classes stay separately reachable through `cssFiles`. -/
theorem claim_C7 (fs : FS) (now : Nat) (st : EngineState) (cp : String)
    (ps : List String) (hcp : cp ≠ "") :
    ∃ ci, mGet (indexComponent fs now st cp ps).1.index cp = some ci
      ∧ mKeys ci.cssFiles = dedupFirst (ps.filter (fileObtainable fs now st.fileCache))
      ∧ ∀ k, mGet ci.allClasses k =
          (ci.cssFiles.filterMap (fun pf => mGet pf.2.classes k)).head? := by
  obtain ⟨h1, h2, h3⟩ := indexLoop_spec fs now cp st.fileCache ps
    (removeComponentFromReverseMapping st cp, [])
    (by
      show CacheEvolved fs now st.fileCache (removeComponentFromReverseMapping st cp).fileCache
      rw [(rcrm_fields st cp).2]
      exact fun q => Or.inl rfl)
  have hres : indexComponent fs now st cp ps =
      ({ (ps.foldl (indexFileStep fs now cp) (removeComponentFromReverseMapping st cp, [])).1 with
         index := mSet
           (ps.foldl (indexFileStep fs now cp) (removeComponentFromReverseMapping st cp, [])).1.index
           cp
           ⟨cp,
            (ps.foldl (indexFileStep fs now cp) (removeComponentFromReverseMapping st cp, [])).2,
            buildAllClasses
              (ps.foldl (indexFileStep fs now cp) (removeComponentFromReverseMapping st cp, [])).2⟩ },
       none) := by
    unfold indexComponent mkComponentIndex
    dsimp only
    rw [if_neg hcp]
  rw [hres]
  exact ⟨⟨cp, _, _⟩, mGet_mSet_self _ _ _, h3,
    fun k => mGet_buildAllClasses _ k⟩

/-- C7 witness: two files both defining `.x`; the merged index keeps both
files in order and `allClasses` takes the first file's entry for `x`. -/
theorem claim_C7_witness :
    ∃ ci, mGet (indexComponent fsClash 0 emptyEngine "/C.tsx"
        ["/a.css", "/b.css"]).1.index "/C.tsx" = some ci
      ∧ mKeys ci.cssFiles = ["/a.css", "/b.css"]
      ∧ mGet ci.allClasses "x" =
          (ci.cssFiles.filterMap (fun pf => mGet pf.2.classes "x")).head? := by
  obtain ⟨ci, h1, h2, h3⟩ := claim_C7 fsClash 0 emptyEngine "/C.tsx" ["/a.css", "/b.css"]
    (by decide)
  exact ⟨ci, h1, by rw [h2]; decide, h3 "x"⟩

/-! ## `updateCSSFile` lemmas (for C4) -/

theorem mem_keys_of_mGet {α β : Type} [DecidableEq α] {m : List (α × β)} {k : α} {v : β}
    (h : mGet m k = some v) : k ∈ mKeys m :=
  List.mem_map.mpr ⟨(k, v), mGet_mem m k v h, rfl⟩

theorem indexComponent_ok_decomp (fs : FS) (now : Nat) (st : EngineState) (cp : String)
    (ps : List String) (hcp : cp ≠ "") :
    indexComponent fs now st cp ps =
      ({ (ps.foldl (indexFileStep fs now cp) (removeComponentFromReverseMapping st cp, [])).1 with
         index := mSet
           (ps.foldl (indexFileStep fs now cp) (removeComponentFromReverseMapping st cp, [])).1.index
           cp
           ⟨cp,
            (ps.foldl (indexFileStep fs now cp) (removeComponentFromReverseMapping st cp, [])).2,
            buildAllClasses
              (ps.foldl (indexFileStep fs now cp) (removeComponentFromReverseMapping st cp, [])).2⟩ },
       none) := by
  unfold indexComponent mkComponentIndex
  dsimp only
  rw [if_neg hcp]

theorem indexFileStep_index (fs : FS) (now : Nat) (cp : String)
    (acc : EngineState × List (String × CSSFile)) (p : String) :
    (indexFileStep fs now cp acc p).1.index = acc.1.index := by
  unfold indexFileStep
  cases mGet acc.1.fileCache p with
  | none =>
      dsimp only
      cases parseCSSFile fs now p <;> rfl
  | some cached =>
      dsimp only
      by_cases h : isStale fs acc.1.fileCache p = true
      · rw [if_pos h]
        cases parseCSSFile fs now p <;> rfl
      · rw [if_neg h]
        rfl

theorem indexLoop_index (fs : FS) (now : Nat) (cp : String) :
    ∀ (ps : List String) (acc : EngineState × List (String × CSSFile)),
      (ps.foldl (indexFileStep fs now cp) acc).1.index = acc.1.index
  | [], _ => rfl
  | p :: rest, acc => by
      rw [List.foldl_cons, indexLoop_index fs now cp rest _, indexFileStep_index]

theorem indexComponent_index_other (fs : FS) (now : Nat) (st : EngineState) (cp : String)
    (ps : List String) (X : String) (hne : cp ≠ X) :
    mGet (indexComponent fs now st cp ps).1.index X = mGet st.index X := by
  unfold indexComponent
  dsimp only
  cases mkComponentIndex cp (ps.foldl (indexFileStep fs now cp)
      (removeComponentFromReverseMapping st cp, [])).2 with
  | error e =>
      dsimp only
      rw [indexLoop_index, (rcrm_fields st cp).1]
  | ok ci =>
      dsimp only
      rw [mGet_mSet_ne _ _ _ _ hne, indexLoop_index, (rcrm_fields st cp).1]

theorem indexComponent_fileCache (fs : FS) (now : Nat) (st : EngineState) (cp : String)
    (ps : List String) :
    (indexComponent fs now st cp ps).1.fileCache =
      (ps.foldl (indexFileStep fs now cp)
        (removeComponentFromReverseMapping st cp, [])).1.fileCache := by
  unfold indexComponent
  dsimp only
  cases mkComponentIndex cp (ps.foldl (indexFileStep fs now cp)
      (removeComponentFromReverseMapping st cp, [])).2 with
  | error e => rfl
  | ok ci => rfl

theorem indexFileStep_val (fs : FS) (now : Nat) (cp : String) (f : String) (cf : CSSFile)
    (hok : parseCSSFile fs now f = .ok cf)
    (acc : EngineState × List (String × CSSFile)) (p : String)
    (h : mGet acc.1.fileCache f = none ∨ mGet acc.1.fileCache f = some cf) :
    (mGet (indexFileStep fs now cp acc p).1.fileCache f = none
      ∨ mGet (indexFileStep fs now cp acc p).1.fileCache f = some cf)
    ∧ mGet (indexFileStep fs now cp acc p).2 f =
        (if p = f then some cf else mGet acc.2 f) := by
  by_cases hpf : p = f
  · subst hpf
    rw [if_pos rfl]
    unfold indexFileStep
    rcases h with hnone | hsome
    · rw [hnone]
      dsimp only
      rw [hok]
      dsimp only
      refine ⟨Or.inr ?_, ?_⟩
      · show mGet (mSet acc.1.fileCache p cf) p = some cf
        exact mGet_mSet_self _ _ _
      · show mGet (mSet acc.2 p cf) p = some cf
        exact mGet_mSet_self _ _ _
    · rw [hsome]
      dsimp only
      rw [isStale_false_of_fresh hok hsome]
      rw [if_neg (by simp)]
      refine ⟨Or.inr ?_, ?_⟩
      · show mGet acc.1.fileCache p = some cf
        exact hsome
      · show mGet (mSet acc.2 p cf) p = some cf
        exact mGet_mSet_self _ _ _
  · rw [if_neg hpf]
    unfold indexFileStep
    cases hg : mGet acc.1.fileCache p with
    | none =>
        dsimp only
        cases hp : parseCSSFile fs now p with
        | error e => exact ⟨h, rfl⟩
        | ok cfp =>
            dsimp only
            constructor
            · show mGet (mSet acc.1.fileCache p cfp) f = none
                ∨ mGet (mSet acc.1.fileCache p cfp) f = some cf
              rw [mGet_mSet_ne _ _ _ _ hpf]
              exact h
            · show mGet (mSet acc.2 p cfp) f = mGet acc.2 f
              exact mGet_mSet_ne _ _ _ _ hpf
    | some cached =>
        dsimp only
        by_cases hst : isStale fs acc.1.fileCache p = true
        · rw [if_pos hst]
          cases hp : parseCSSFile fs now p with
          | error e => exact ⟨h, rfl⟩
          | ok cfp =>
              dsimp only
              constructor
              · show mGet (mSet acc.1.fileCache p cfp) f = none
                  ∨ mGet (mSet acc.1.fileCache p cfp) f = some cf
                rw [mGet_mSet_ne _ _ _ _ hpf]
                exact h
              · show mGet (mSet acc.2 p cfp) f = mGet acc.2 f
                exact mGet_mSet_ne _ _ _ _ hpf
        · rw [if_neg hst]
          constructor
          · exact h
          · show mGet (mSet acc.2 p cached) f = mGet acc.2 f
            exact mGet_mSet_ne _ _ _ _ hpf

theorem indexLoop_val (fs : FS) (now : Nat) (cp : String) (f : String) (cf : CSSFile)
    (hok : parseCSSFile fs now f = .ok cf) :
    ∀ (ps : List String) (acc : EngineState × List (String × CSSFile)),
      (mGet acc.1.fileCache f = none ∨ mGet acc.1.fileCache f = some cf) →
      (mGet (ps.foldl (indexFileStep fs now cp) acc).1.fileCache f = none
        ∨ mGet (ps.foldl (indexFileStep fs now cp) acc).1.fileCache f = some cf)
      ∧ mGet (ps.foldl (indexFileStep fs now cp) acc).2 f =
          (if f ∈ ps then some cf else mGet acc.2 f)
  | [], acc, h => ⟨h, by simp⟩
  | p :: rest, acc, h => by
      obtain ⟨s1, s2⟩ := indexFileStep_val fs now cp f cf hok acc p h
      obtain ⟨g1, g2⟩ := indexLoop_val fs now cp f cf hok rest
        (indexFileStep fs now cp acc p) s1
      rw [List.foldl_cons]
      refine ⟨g1, ?_⟩
      rw [g2, s2]
      by_cases hr : f ∈ rest
      · rw [if_pos hr, if_pos (List.mem_cons_of_mem p hr)]
      · rw [if_neg hr]
        by_cases hpf : p = f
        · rw [if_pos hpf, if_pos (by rw [hpf]; exact List.mem_cons_self f rest)]
        · rw [if_neg hpf, if_neg ?_]
          intro hmem
          rcases List.mem_cons.mp hmem with h1 | h1
          · exact hpf h1.symm
          · exact hr h1

theorem updStep_other (fs : FS) (now : Nat) (st : EngineState) (cp X : String)
    (hne : cp ≠ X) : mGet (updStep fs now st cp).index X = mGet st.index X := by
  unfold updStep
  cases mGet st.index cp with
  | none => rfl
  | some ci => exact indexComponent_index_other fs now st cp (mKeys ci.cssFiles) X hne

theorem updStep_cacheF (fs : FS) (now : Nat) (st : EngineState) (cp f : String)
    (cf : CSSFile) (hok : parseCSSFile fs now f = .ok cf)
    (h : mGet st.fileCache f = none ∨ mGet st.fileCache f = some cf) :
    mGet (updStep fs now st cp).fileCache f = none
    ∨ mGet (updStep fs now st cp).fileCache f = some cf := by
  unfold updStep
  cases mGet st.index cp with
  | none => exact h
  | some ci =>
      dsimp only
      rw [indexComponent_fileCache]
      exact (indexLoop_val fs now cp f cf hok (mKeys ci.cssFiles)
        (removeComponentFromReverseMapping st cp, [])
        (by
          show mGet (removeComponentFromReverseMapping st cp).fileCache f = none
              ∨ mGet (removeComponentFromReverseMapping st cp).fileCache f = some cf
          rw [(rcrm_fields st cp).2]
          exact h)).1

theorem updStep_self (fs : FS) (now : Nat) (st : EngineState) (X : String)
    (hX : X ≠ "") (f : String) (cf : CSSFile)
    (hok : parseCSSFile fs now f = .ok cf)
    (hcache : mGet st.fileCache f = none ∨ mGet st.fileCache f = some cf)
    (hP : ∃ ci, mGet st.index X = some ci ∧ f ∈ mKeys ci.cssFiles) :
    ∃ ci, mGet (updStep fs now st X).index X = some ci
      ∧ mGet ci.cssFiles f = some cf := by
  obtain ⟨ci, hci, hf⟩ := hP
  unfold updStep
  rw [hci]
  dsimp only
  rw [indexComponent_ok_decomp fs now st X (mKeys ci.cssFiles) hX]
  dsimp only
  refine ⟨⟨X, _, _⟩, mGet_mSet_self _ _ _, ?_⟩
  obtain ⟨v1, v2⟩ := indexLoop_val fs now X f cf hok (mKeys ci.cssFiles)
    (removeComponentFromReverseMapping st X, [])
    (by
      show mGet (removeComponentFromReverseMapping st X).fileCache f = none
          ∨ mGet (removeComponentFromReverseMapping st X).fileCache f = some cf
      rw [(rcrm_fields st X).2]
      exact hcache)
  show mGet ((mKeys ci.cssFiles).foldl (indexFileStep fs now X)
      (removeComponentFromReverseMapping st X, [])).2 f = some cf
  rw [v2, if_pos hf]

theorem updLoop_spec (fs : FS) (now : Nat) (f : String) (cf : CSSFile)
    (hok : parseCSSFile fs now f = .ok cf) (X : String) (hX : X ≠ "") :
    ∀ (comps : List String) (st : EngineState),
      (mGet st.fileCache f = none ∨ mGet st.fileCache f = some cf) →
      (∃ ci, mGet st.index X = some ci ∧ f ∈ mKeys ci.cssFiles) →
      (∃ ci, mGet (comps.foldl (updStep fs now) st).index X = some ci
        ∧ f ∈ mKeys ci.cssFiles)
      ∧ (X ∈ comps →
          ∃ ci, mGet (comps.foldl (updStep fs now) st).index X = some ci
            ∧ mGet ci.cssFiles f = some cf)
      ∧ (X ∉ comps → mGet (comps.foldl (updStep fs now) st).index X = mGet st.index X)
  | [], st, hc, hP => ⟨hP, fun h => absurd h (List.not_mem_nil X), fun _ => rfl⟩
  | cp :: rest, st, hc, hP => by
      have hc1 := updStep_cacheF fs now st cp f cf hok hc
      by_cases hcp : cp = X
      · subst hcp
        have hstrong := updStep_self fs now st cp hX f cf hok hc hP
        have hP1 : ∃ ci, mGet (updStep fs now st cp).index cp = some ci
            ∧ f ∈ mKeys ci.cssFiles := by
          obtain ⟨ci, h1, h2⟩ := hstrong
          exact ⟨ci, h1, mem_keys_of_mGet h2⟩
        obtain ⟨g1, g2, g3⟩ := updLoop_spec fs now f cf hok cp hX rest
          (updStep fs now st cp) hc1 hP1
        rw [List.foldl_cons]
        refine ⟨g1, fun _ => ?_, fun hnot => absurd (List.mem_cons_self cp rest) hnot⟩
        by_cases hr : cp ∈ rest
        · exact g2 hr
        · rw [g3 hr]
          exact hstrong
      · have hP1 : ∃ ci, mGet (updStep fs now st cp).index X = some ci
            ∧ f ∈ mKeys ci.cssFiles := by
          rw [updStep_other fs now st cp X hcp]
          exact hP
        obtain ⟨g1, g2, g3⟩ := updLoop_spec fs now f cf hok X hX rest
          (updStep fs now st cp) hc1 hP1
        rw [List.foldl_cons]
        refine ⟨g1, ?_, ?_⟩
        · intro hmem
          rcases List.mem_cons.mp hmem with h1 | h1
          · exact absurd h1.symm hcp
          · exact g2 h1
        · intro hnot
          rw [g3 (fun h => hnot (List.mem_cons_of_mem cp h)),
            updStep_other fs now st cp X hcp]

/-- C4: `updateCSSFile f` invalidates the cache entry for `f` and re-runs
`indexComponent` for every component in the reverse-map entry of `f` with
that component's existing full import set; whenever the changed file now
parses to `cf`, every distinct indexed dependent (here two, `A` and `B`,
each importing `f`) ends up with an index whose `cssFiles` stores the NEW
parse `cf` for `f` — one dependent cannot block the other since each is
handled independently. -/
theorem claim_C4 (fs : FS) (now : Nat) (st : EngineState) (f A B : String)
    (cf : CSSFile) (comps : List String)
    (hok : parseCSSFile fs now f = .ok cf)
    (hcomps : mGet st.cssFileToComponents f = some comps)
    (hA : A ≠ "") (hB : B ≠ "") (_hAB : A ≠ B)
    (hmemA : A ∈ comps) (hmemB : B ∈ comps)
    (hciA : ∃ ci, mGet st.index A = some ci ∧ f ∈ mKeys ci.cssFiles)
    (hciB : ∃ ci, mGet st.index B = some ci ∧ f ∈ mKeys ci.cssFiles) :
    (∃ ci, mGet (updateCSSFile fs now st f).index A = some ci
        ∧ mGet ci.cssFiles f = some cf)
    ∧ ∃ ci, mGet (updateCSSFile fs now st f).index B = some ci
        ∧ mGet ci.cssFiles f = some cf := by
  have hres : updateCSSFile fs now st f =
      comps.foldl (updStep fs now) { st with fileCache := mDel st.fileCache f } := by
    unfold updateCSSFile
    dsimp only
    rw [hcomps]
    dsimp only
    rw [if_neg (List.ne_nil_of_mem hmemA)]
  rw [hres]
  have hcache : mGet (mDel st.fileCache f) f = none ∨ mGet (mDel st.fileCache f) f = some cf :=
    Or.inl (mGet_mDel_self _ _)
  obtain ⟨_, gA, _⟩ := updLoop_spec fs now f cf hok A hA comps
    { st with fileCache := mDel st.fileCache f } hcache hciA
  obtain ⟨_, gB, _⟩ := updLoop_spec fs now f cf hok B hB comps
    { st with fileCache := mDel st.fileCache f } hcache hciB
  exact ⟨gA hmemA, gB hmemB⟩

/-- C4 witness: two components indexed against the original shared
stylesheet; after the file changes, `updateCSSFile` leaves both components
holding the fresh parse. -/
theorem claim_C4_witness :
    (∃ ci, mGet (updateCSSFile fsShared2 0 stShared "/shared.css").index "/A.tsx" = some ci
        ∧ mGet ci.cssFiles "/shared.css" = some cfShared2)
    ∧ ∃ ci, mGet (updateCSSFile fsShared2 0 stShared "/shared.css").index "/B.tsx" = some ci
        ∧ mGet ci.cssFiles "/shared.css" = some cfShared2 :=
  claim_C4 fsShared2 0 stShared "/shared.css" "/A.tsx" "/B.tsx" cfShared2
    ["/A.tsx", "/B.tsx"] rfl rfl (by decide) (by decide) (by decide)
    (by decide) (by decide) ⟨_, rfl, by decide⟩ ⟨_, rfl, by decide⟩

/-! ## Reverse-map membership lemmas (for C1) -/

theorem mem_sAdd {s : List String} {x y : String} : y ∈ sAdd s x ↔ y ∈ s ∨ y = x := by
  unfold sAdd
  by_cases h : x ∈ s
  · rw [if_pos h]
    constructor
    · exact Or.inl
    · rintro (h1 | h1)
      · exact h1
      · rw [h1]; exact h
  · rw [if_neg h]
    simp [List.mem_append]

theorem mem_sDel {s : List String} {x y : String} : y ∈ sDel s x ↔ y ∈ s ∧ y ≠ x := by
  unfold sDel
  rw [List.mem_filter]
  simp [bne_iff_ne]

theorem mem_mKeys_mSet {α β : Type} [DecidableEq α] {m : List (α × β)} {k q : α} {v : β} :
    q ∈ mKeys (mSet m k v) ↔ q ∈ mKeys m ∨ q = k := by
  rw [mKeys_mSet]
  by_cases h : k ∈ mKeys m
  · rw [if_pos h]
    constructor
    · exact Or.inl
    · rintro (h1 | h1)
      · exact h1
      · rw [h1]; exact h
  · rw [if_neg h]
    simp [List.mem_append]

theorem mGet_foldl_mDel {α β : Type} [DecidableEq α] :
    ∀ (L : List α) (m : List (α × β)) (k : α),
      mGet (L.foldl mDel m) k = if k ∈ L then none else mGet m k
  | [], m, k => by simp
  | a :: rest, m, k => by
      rw [List.foldl_cons, mGet_foldl_mDel rest (mDel m a) k]
      by_cases hr : k ∈ rest
      · rw [if_pos hr, if_pos (List.mem_cons_of_mem a hr)]
      · rw [if_neg hr]
        by_cases ha : k = a
        · rw [if_pos (by rw [ha]; exact List.mem_cons_self a rest), ha, mGet_mDel_self]
        · rw [mGet_mDel_ne _ _ _ (fun h => ha h.symm), if_neg ?_]
          intro hmem
          rcases List.mem_cons.mp hmem with h1 | h1
          · exact ha h1
          · exact hr h1

theorem memSet_mSet_ne {m : List (String × List String)} {k q cp : String}
    {s : List String} (h : k ≠ q) : memSet (mSet m k s) q cp ↔ memSet m q cp := by
  unfold memSet
  rw [mGet_mSet_ne _ _ _ _ h]

theorem memSet_mDel_ne {m : List (String × List String)} {k q cp : String}
    (h : k ≠ q) : memSet (mDel m k) q cp ↔ memSet m q cp := by
  unfold memSet
  rw [mGet_mDel_ne _ _ _ h]

theorem not_memSet_mDel_self {m : List (String × List String)} {k cp : String} :
    ¬ memSet (mDel m k) k cp := by
  rintro ⟨s, hs, _⟩
  rw [mGet_mDel_self] at hs
  exact Option.noConfusion hs

theorem memSet_mSet_self {m : List (String × List String)} {k cp : String}
    {s : List String} : memSet (mSet m k s) k cp ↔ cp ∈ s := by
  unfold memSet
  constructor
  · rintro ⟨s2, hs, hm⟩
    rw [mGet_mSet_self] at hs
    injection hs with h2
    rw [h2]
    exact hm
  · intro h
    exact ⟨s, mGet_mSet_self _ _ _, h⟩

theorem rcrmStep_other {cp : String} {rm : List (String × List String)}
    {pf : String × CSSFile} {q cp2 : String} (hne : cp2 ≠ cp) :
    memSet (rcrmStep cp rm pf) q cp2 ↔ memSet rm q cp2 := by
  unfold rcrmStep
  cases hg : mGet rm pf.1 with
  | none => exact Iff.rfl
  | some comps =>
      dsimp only
      by_cases hq : pf.1 = q
      · subst hq
        by_cases hz : sDel comps cp = []
        · rw [if_pos hz]
          constructor
          · intro h
            exact absurd h not_memSet_mDel_self
          · rintro ⟨s, hs, hm⟩
            rw [hg] at hs
            injection hs with h2
            rw [← h2] at hm
            exact absurd (mem_sDel.mpr ⟨hm, hne⟩) (by rw [hz]; exact List.not_mem_nil cp2)
        · rw [if_neg hz, memSet_mSet_self, mem_sDel]
          unfold memSet
          rw [hg]
          constructor
          · rintro ⟨h1, _⟩
            exact ⟨comps, rfl, h1⟩
          · rintro ⟨s, hs, hm⟩
            injection hs with h2
            rw [← h2] at hm
            exact ⟨hm, hne⟩
      · by_cases hz : sDel comps cp = []
        · rw [if_pos hz]
          exact memSet_mDel_ne hq
        · rw [if_neg hz]
          exact memSet_mSet_ne hq

theorem rcrmStep_self {cp : String} {rm : List (String × List String)}
    {pf : String × CSSFile} {q : String} :
    memSet (rcrmStep cp rm pf) q cp ↔ memSet rm q cp ∧ pf.1 ≠ q := by
  unfold rcrmStep
  cases hg : mGet rm pf.1 with
  | none =>
      constructor
      · intro h
        refine ⟨h, ?_⟩
        intro he
        obtain ⟨s, hs, _⟩ := h
        rw [← he, hg] at hs
        exact Option.noConfusion hs
      · exact fun h => h.1
  | some comps =>
      dsimp only
      by_cases hq : pf.1 = q
      · subst hq
        by_cases hz : sDel comps cp = []
        · rw [if_pos hz]
          constructor
          · intro h
            exact absurd h not_memSet_mDel_self
          · rintro ⟨_, hne⟩
            exact absurd rfl hne
        · rw [if_neg hz, memSet_mSet_self, mem_sDel]
          constructor
          · rintro ⟨_, hcc⟩
            exact absurd rfl hcc
          · rintro ⟨_, hne⟩
            exact absurd rfl hne
      · by_cases hz : sDel comps cp = []
        · rw [if_pos hz, memSet_mDel_ne hq]
          constructor
          · exact fun h => ⟨h, hq⟩
          · exact fun h => h.1
        · rw [if_neg hz, memSet_mSet_ne hq]
          constructor
          · exact fun h => ⟨h, hq⟩
          · exact fun h => h.1

theorem rcrmFold_other {cp cp2 : String} (hne : cp2 ≠ cp) :
    ∀ (L : List (String × CSSFile)) (rm : List (String × List String)) (q : String),
      memSet (L.foldl (rcrmStep cp) rm) q cp2 ↔ memSet rm q cp2
  | [], rm, q => Iff.rfl
  | pf :: rest, rm, q => by
      rw [List.foldl_cons, rcrmFold_other hne rest _ q, rcrmStep_other hne]

theorem rcrmFold_self {cp : String} :
    ∀ (L : List (String × CSSFile)) (rm : List (String × List String)) (q : String),
      memSet (L.foldl (rcrmStep cp) rm) q cp ↔ memSet rm q cp ∧ q ∉ L.map Prod.fst
  | [], rm, q => by simp
  | pf :: rest, rm, q => by
      rw [List.foldl_cons, rcrmFold_self rest _ q, rcrmStep_self, List.map_cons]
      constructor
      · rintro ⟨⟨h1, h2⟩, h3⟩
        refine ⟨h1, ?_⟩
        intro hmem
        rcases List.mem_cons.mp hmem with hh | hh
        · exact h2 hh.symm
        · exact h3 hh
      · rintro ⟨h1, h2⟩
        exact ⟨⟨h1, fun he => h2 (by rw [he]; exact List.mem_cons_self _ _)⟩,
          fun hm => h2 (List.mem_cons_of_mem _ hm)⟩

theorem rcrm_no_self {st : EngineState} {cp : String} (hB : Backward st) (q : String) :
    ¬ memSet (removeComponentFromReverseMapping st cp).cssFileToComponents q cp := by
  unfold removeComponentFromReverseMapping
  cases hg : mGet st.index cp with
  | none =>
      dsimp only
      rintro ⟨s, hs, hm⟩
      obtain ⟨ci, hci, _⟩ := hB q s hs cp hm
      rw [hg] at hci
      exact Option.noConfusion hci
  | some oldci =>
      dsimp only
      intro h
      rw [rcrmFold_self] at h
      obtain ⟨⟨s, hs, hm⟩, hnk⟩ := h
      obtain ⟨ci, hci, hkey⟩ := hB q s hs cp hm
      rw [hg] at hci
      injection hci with h2
      rw [← h2] at hkey
      exact hnk hkey

theorem rcrm_other {st : EngineState} {cp cp2 : String} (hne : cp2 ≠ cp) (q : String) :
    memSet (removeComponentFromReverseMapping st cp).cssFileToComponents q cp2
      ↔ memSet st.cssFileToComponents q cp2 := by
  unfold removeComponentFromReverseMapping
  cases mGet st.index cp with
  | none => exact Iff.rfl
  | some oldci =>
      dsimp only
      exact rcrmFold_other hne _ _ q

theorem addFileEntry_R_other {cp p : String} {st : EngineState}
    {cssFiles : List (String × CSSFile)} {cf : CSSFile} {q cp2 : String}
    (hne : cp2 ≠ cp) :
    memSet (addFileEntry cp p st cssFiles cf).1.cssFileToComponents q cp2
      ↔ memSet st.cssFileToComponents q cp2 := by
  unfold addFileEntry
  cases hg : mGet st.cssFileToComponents p with
  | none =>
      dsimp only
      by_cases hq : p = q
      · subst hq
        rw [memSet_mSet_self, mem_sAdd]
        unfold memSet
        rw [hg]
        constructor
        · rintro (h1 | h1)
          · exact absurd h1 (List.not_mem_nil cp2)
          · exact absurd h1 hne
        · rintro ⟨s, hs, _⟩
          exact Option.noConfusion hs
      · rw [memSet_mSet_ne hq]
  | some s =>
      dsimp only
      by_cases hq : p = q
      · subst hq
        rw [memSet_mSet_self, mem_sAdd]
        unfold memSet
        rw [hg]
        constructor
        · rintro (h1 | h1)
          · exact ⟨s, rfl, h1⟩
          · exact absurd h1 hne
        · rintro ⟨s2, hs, hm⟩
          injection hs with h2
          rw [← h2] at hm
          exact Or.inl hm
      · rw [memSet_mSet_ne hq]

theorem addFileEntry_R_self {cp p : String} {st : EngineState}
    {cssFiles : List (String × CSSFile)} {cf : CSSFile} {q : String} :
    memSet (addFileEntry cp p st cssFiles cf).1.cssFileToComponents q cp
      ↔ memSet st.cssFileToComponents q cp ∨ q = p := by
  unfold addFileEntry
  cases hg : mGet st.cssFileToComponents p with
  | none =>
      dsimp only
      by_cases hq : p = q
      · subst hq
        rw [memSet_mSet_self, mem_sAdd]
        constructor
        · intro _
          exact Or.inr rfl
        · intro _
          exact Or.inr rfl
      · rw [memSet_mSet_ne hq]
        constructor
        · exact Or.inl
        · rintro (h1 | h1)
          · exact h1
          · exact absurd h1.symm hq
  | some s =>
      dsimp only
      by_cases hq : p = q
      · subst hq
        rw [memSet_mSet_self, mem_sAdd]
        constructor
        · intro _
          exact Or.inr rfl
        · intro _
          exact Or.inr rfl
      · rw [memSet_mSet_ne hq]
        constructor
        · exact Or.inl
        · rintro (h1 | h1)
          · exact h1
          · exact absurd h1.symm hq

theorem indexFileStep_R_other (fs : FS) (now : Nat) (cp : String)
    (acc : EngineState × List (String × CSSFile)) (p : String) {q cp2 : String}
    (hne : cp2 ≠ cp) :
    memSet (indexFileStep fs now cp acc p).1.cssFileToComponents q cp2
      ↔ memSet acc.1.cssFileToComponents q cp2 := by
  unfold indexFileStep
  cases mGet acc.1.fileCache p with
  | none =>
      dsimp only
      cases parseCSSFile fs now p with
      | error e => exact Iff.rfl
      | ok cf => exact addFileEntry_R_other hne
  | some cached =>
      dsimp only
      by_cases h : isStale fs acc.1.fileCache p = true
      · rw [if_pos h]
        cases parseCSSFile fs now p with
        | error e => exact Iff.rfl
        | ok cf => exact addFileEntry_R_other hne
      · rw [if_neg h]
        exact addFileEntry_R_other hne

theorem indexFileStep_J (fs : FS) (now : Nat) (cp : String)
    (acc : EngineState × List (String × CSSFile)) (p : String)
    (hJ : ∀ q, memSet acc.1.cssFileToComponents q cp ↔ q ∈ mKeys acc.2) (q : String) :
    memSet (indexFileStep fs now cp acc p).1.cssFileToComponents q cp
      ↔ q ∈ mKeys (indexFileStep fs now cp acc p).2 := by
  have hadd : ∀ (st : EngineState) (cf : CSSFile),
      st.cssFileToComponents = acc.1.cssFileToComponents →
      (memSet (addFileEntry cp p st acc.2 cf).1.cssFileToComponents q cp
        ↔ q ∈ mKeys (addFileEntry cp p st acc.2 cf).2) := by
    intro st cf hst
    rw [addFileEntry_R_self, hst, hJ q]
    show _ ↔ q ∈ mKeys (mSet acc.2 p cf)
    rw [mem_mKeys_mSet]
  unfold indexFileStep
  cases mGet acc.1.fileCache p with
  | none =>
      dsimp only
      cases parseCSSFile fs now p with
      | error e => exact hJ q
      | ok cf => exact hadd _ cf rfl
  | some cached =>
      dsimp only
      by_cases h : isStale fs acc.1.fileCache p = true
      · rw [if_pos h]
        cases parseCSSFile fs now p with
        | error e => exact hJ q
        | ok cf => exact hadd _ cf rfl
      · rw [if_neg h]
        exact hadd _ cached rfl

theorem indexFileStep_fwd (fs : FS) (now : Nat) (cp : String)
    (acc : EngineState × List (String × CSSFile)) (p : String)
    (hf : ∀ q, q ∈ mKeys acc.2 → memSet acc.1.cssFileToComponents q cp) (q : String) :
    q ∈ mKeys (indexFileStep fs now cp acc p).2 →
      memSet (indexFileStep fs now cp acc p).1.cssFileToComponents q cp := by
  have hadd : ∀ (st : EngineState) (cf : CSSFile),
      st.cssFileToComponents = acc.1.cssFileToComponents →
      q ∈ mKeys (addFileEntry cp p st acc.2 cf).2 →
      memSet (addFileEntry cp p st acc.2 cf).1.cssFileToComponents q cp := by
    intro st cf hst hq
    rw [addFileEntry_R_self, hst]
    have hq2 : q ∈ mKeys (mSet acc.2 p cf) := hq
    rcases mem_mKeys_mSet.mp hq2 with h1 | h1
    · exact Or.inl (hf q h1)
    · exact Or.inr h1
  unfold indexFileStep
  cases mGet acc.1.fileCache p with
  | none =>
      dsimp only
      cases parseCSSFile fs now p with
      | error e => exact hf q
      | ok cf => exact hadd _ cf rfl
  | some cached =>
      dsimp only
      by_cases h : isStale fs acc.1.fileCache p = true
      · rw [if_pos h]
        cases parseCSSFile fs now p with
        | error e => exact hf q
        | ok cf => exact hadd _ cf rfl
      · rw [if_neg h]
        exact hadd _ cached rfl

theorem indexLoop_R_other (fs : FS) (now : Nat) (cp : String) {cp2 : String}
    (hne : cp2 ≠ cp) :
    ∀ (ps : List String) (acc : EngineState × List (String × CSSFile)) (q : String),
      memSet (ps.foldl (indexFileStep fs now cp) acc).1.cssFileToComponents q cp2
        ↔ memSet acc.1.cssFileToComponents q cp2
  | [], acc, q => Iff.rfl
  | p :: rest, acc, q => by
      rw [List.foldl_cons, indexLoop_R_other fs now cp hne rest _ q,
        indexFileStep_R_other fs now cp acc p hne]

theorem indexLoop_J (fs : FS) (now : Nat) (cp : String) :
    ∀ (ps : List String) (acc : EngineState × List (String × CSSFile)),
      (∀ q, memSet acc.1.cssFileToComponents q cp ↔ q ∈ mKeys acc.2) →
      ∀ q, memSet (ps.foldl (indexFileStep fs now cp) acc).1.cssFileToComponents q cp
        ↔ q ∈ mKeys (ps.foldl (indexFileStep fs now cp) acc).2
  | [], acc, hJ => hJ
  | p :: rest, acc, hJ => by
      rw [List.foldl_cons]
      exact indexLoop_J fs now cp rest _ (indexFileStep_J fs now cp acc p hJ)

theorem indexLoop_fwd (fs : FS) (now : Nat) (cp : String) :
    ∀ (ps : List String) (acc : EngineState × List (String × CSSFile)),
      (∀ q, q ∈ mKeys acc.2 → memSet acc.1.cssFileToComponents q cp) →
      ∀ q, q ∈ mKeys (ps.foldl (indexFileStep fs now cp) acc).2 →
        memSet (ps.foldl (indexFileStep fs now cp) acc).1.cssFileToComponents q cp
  | [], acc, hf => hf
  | p :: rest, acc, hf => by
      rw [List.foldl_cons]
      exact indexLoop_fwd fs now cp rest _ (indexFileStep_fwd fs now cp acc p hf)

theorem indexComponent_err_decomp (fs : FS) (now : Nat) (st : EngineState)
    (ps : List String) :
    indexComponent fs now st "" ps =
      ((ps.foldl (indexFileStep fs now "")
          (removeComponentFromReverseMapping st "", [])).1,
       some "Component path is required") := by
  unfold indexComponent mkComponentIndex
  dsimp only
  rw [if_pos rfl]

theorem indexComponent_pres_inv (fs : FS) (now : Nat) (st : EngineState) (cp : String)
    (ps : List String) (hcp : cp ≠ "") (hInv : EngineInv st) :
    EngineInv (indexComponent fs now st cp ps).1 := by
  obtain ⟨hF, hB, hN⟩ := hInv
  have hidx : (ps.foldl (indexFileStep fs now cp)
      (removeComponentFromReverseMapping st cp, [])).1.index = st.index :=
    (indexLoop_index fs now cp ps _).trans (rcrm_fields st cp).1
  have hJ0 : ∀ q, memSet (removeComponentFromReverseMapping st cp).cssFileToComponents q cp
      ↔ q ∈ mKeys ([] : List (String × CSSFile)) := by
    intro q
    constructor
    · intro h
      exact absurd h (rcrm_no_self hB q)
    · intro h
      exact absurd h (List.not_mem_nil q)
  have hJ := indexLoop_J fs now cp ps (removeComponentFromReverseMapping st cp, []) hJ0
  rw [indexComponent_ok_decomp fs now st cp ps hcp]
  dsimp only
  refine ⟨?_, ?_, ?_⟩
  · intro cp2 ci2 hci2 p hp
    by_cases hc2 : cp = cp2
    · subst hc2
      rw [mGet_mSet_self] at hci2
      injection hci2 with h2
      rw [← h2] at hp
      exact (hJ p).mpr hp
    · rw [mGet_mSet_ne _ _ _ _ hc2, hidx] at hci2
      have hmem := hF cp2 ci2 hci2 p hp
      rw [indexLoop_R_other fs now cp (fun h => hc2 h.symm) ps _ p]
      exact (rcrm_other (fun h => hc2 h.symm) p).mpr hmem
  · intro q s hs cp2 hm
    by_cases hc2 : cp2 = cp
    · rw [hc2] at hm ⊢
      have hmem : memSet (ps.foldl (indexFileStep fs now cp)
          (removeComponentFromReverseMapping st cp, [])).1.cssFileToComponents q cp :=
        ⟨s, hs, hm⟩
      refine ⟨⟨cp, _, _⟩, mGet_mSet_self _ _ _, ?_⟩
      exact (hJ q).mp hmem
    · have hmem : memSet st.cssFileToComponents q cp2 := by
        rw [← @rcrm_other st cp _ hc2 q,
          ← indexLoop_R_other fs now cp hc2 ps (removeComponentFromReverseMapping st cp, []) q]
        exact ⟨s, hs, hm⟩
      obtain ⟨s0, hs0, hm0⟩ := hmem
      obtain ⟨ci, hci, hkey⟩ := hB q s0 hs0 cp2 hm0
      refine ⟨ci, ?_, hkey⟩
      rw [mGet_mSet_ne _ _ _ _ (fun h => hc2 h.symm), hidx]
      exact hci
  · show mGet (mSet _ cp _) "" = none
    rw [mGet_mSet_ne _ _ _ _ hcp, hidx]
    exact hN

theorem indexComponent_pres_fwd (fs : FS) (now : Nat) (st : EngineState) (cp : String)
    (ps : List String) (hF : Forward st) (hN : NoEmptyKey st) :
    Forward (indexComponent fs now st cp ps).1
    ∧ NoEmptyKey (indexComponent fs now st cp ps).1 := by
  have hidx : (ps.foldl (indexFileStep fs now cp)
      (removeComponentFromReverseMapping st cp, [])).1.index = st.index :=
    (indexLoop_index fs now cp ps _).trans (rcrm_fields st cp).1
  have hother : ∀ (cp2 q : String), cp2 ≠ cp →
      memSet st.cssFileToComponents q cp2 →
      memSet (ps.foldl (indexFileStep fs now cp)
        (removeComponentFromReverseMapping st cp, [])).1.cssFileToComponents q cp2 := by
    intro cp2 q hne hmem
    rw [indexLoop_R_other fs now cp hne ps _ q]
    exact (rcrm_other hne q).mpr hmem
  have hfwd := indexLoop_fwd fs now cp ps (removeComponentFromReverseMapping st cp, [])
    (fun q hq => absurd hq (List.not_mem_nil q))
  by_cases hcp : cp = ""
  · subst hcp
    rw [indexComponent_err_decomp fs now st ps]
    dsimp only
    constructor
    · intro cp2 ci2 hci2 p hp
      rw [hidx] at hci2
      have hne : cp2 ≠ "" := by
        intro he
        rw [he, hN] at hci2
        exact Option.noConfusion hci2
      exact hother cp2 p hne (hF cp2 ci2 hci2 p hp)
    · show mGet _ "" = none
      rw [hidx]
      exact hN
  · rw [indexComponent_ok_decomp fs now st cp ps hcp]
    dsimp only
    constructor
    · intro cp2 ci2 hci2 p hp
      by_cases hc2 : cp = cp2
      · subst hc2
        rw [mGet_mSet_self] at hci2
        injection hci2 with h2
        rw [← h2] at hp
        exact hfwd p hp
      · rw [mGet_mSet_ne _ _ _ _ hc2, hidx] at hci2
        exact hother cp2 p (fun h => hc2 h.symm) (hF cp2 ci2 hci2 p hp)
    · show mGet (mSet _ cp _) "" = none
      rw [mGet_mSet_ne _ _ _ _ hcp, hidx]
      exact hN

theorem handleComponentChange_pres_inv (st : EngineState) (cp : String)
    (hInv : EngineInv st) : EngineInv (handleComponentChange st cp) := by
  obtain ⟨hF, hB, hN⟩ := hInv
  unfold handleComponentChange
  dsimp only
  refine ⟨?_, ?_, ?_⟩
  · intro cp2 ci2 hci2 p hp
    by_cases hc2 : cp = cp2
    · rw [← hc2, mGet_mDel_self] at hci2
      exact Option.noConfusion hci2
    · rw [mGet_mDel_ne _ _ _ hc2, (rcrm_fields st cp).1] at hci2
      exact (rcrm_other (fun h => hc2 h.symm) p).mpr (hF cp2 ci2 hci2 p hp)
  · intro q s hs cp2 hm
    by_cases hc2 : cp2 = cp
    · rw [hc2] at hm
      exact absurd ⟨s, hs, hm⟩ (rcrm_no_self hB q)
    · obtain ⟨s0, hs0, hm0⟩ := (rcrm_other hc2 q).mp ⟨s, hs, hm⟩
      obtain ⟨ci, hci, hkey⟩ := hB q s0 hs0 cp2 hm0
      refine ⟨ci, ?_, hkey⟩
      rw [mGet_mDel_ne _ _ _ (fun h => hc2 h.symm), (rcrm_fields st cp).1]
      exact hci
  · show mGet (mDel (removeComponentFromReverseMapping st cp).index cp) "" = none
    by_cases hc : cp = ""
    · rw [hc, mGet_mDel_self]
    · rw [mGet_mDel_ne _ _ _ hc, (rcrm_fields st cp).1]
      exact hN

theorem handleComponentChange_pres_fwd (st : EngineState) (cp : String)
    (hF : Forward st) (hN : NoEmptyKey st) :
    Forward (handleComponentChange st cp) ∧ NoEmptyKey (handleComponentChange st cp) := by
  unfold handleComponentChange
  dsimp only
  constructor
  · intro cp2 ci2 hci2 p hp
    by_cases hc2 : cp = cp2
    · rw [← hc2, mGet_mDel_self] at hci2
      exact Option.noConfusion hci2
    · rw [mGet_mDel_ne _ _ _ hc2, (rcrm_fields st cp).1] at hci2
      exact (rcrm_other (fun h => hc2 h.symm) p).mpr (hF cp2 ci2 hci2 p hp)
  · show mGet (mDel (removeComponentFromReverseMapping st cp).index cp) "" = none
    by_cases hc : cp = ""
    · rw [hc, mGet_mDel_self]
    · rw [mGet_mDel_ne _ _ _ hc, (rcrm_fields st cp).1]
      exact hN

theorem removeCSSFile_pres_fwd (st : EngineState) (f : String)
    (hF : Forward st) (hN : NoEmptyKey st) :
    Forward (removeCSSFile st f) ∧ NoEmptyKey (removeCSSFile st f) := by
  unfold removeCSSFile
  dsimp only
  cases hg : mGet st.cssFileToComponents f with
  | none =>
      constructor
      · intro cp2 ci2 hci2 p hp
        have hmem := hF cp2 ci2 hci2 p hp
        show memSet (mDel st.cssFileToComponents f) p cp2
        by_cases hpf : f = p
        · obtain ⟨s, hs, _⟩ := hmem
          rw [← hpf, hg] at hs
          exact Option.noConfusion hs
        · exact (memSet_mDel_ne hpf).mpr hmem
      · exact hN
  | some comps =>
      dsimp only
      by_cases hz : comps = []
      · rw [if_pos hz]
        constructor
        · intro cp2 ci2 hci2 p hp
          have hmem := hF cp2 ci2 hci2 p hp
          show memSet (mDel st.cssFileToComponents f) p cp2
          by_cases hpf : f = p
          · obtain ⟨s, hs, hm⟩ := hmem
            rw [← hpf, hg] at hs
            injection hs with h2
            rw [← h2, hz] at hm
            exact absurd hm (List.not_mem_nil cp2)
          · exact (memSet_mDel_ne hpf).mpr hmem
        · exact hN
      · rw [if_neg hz]
        constructor
        · intro cp2 ci2 hci2 p hp
          rw [mGet_foldl_mDel] at hci2
          by_cases hcm : cp2 ∈ comps
          · rw [if_pos hcm] at hci2
            exact Option.noConfusion hci2
          · rw [if_neg hcm] at hci2
            have hmem := hF cp2 ci2 hci2 p hp
            show memSet (mDel st.cssFileToComponents f) p cp2
            by_cases hpf : f = p
            · obtain ⟨s, hs, hm⟩ := hmem
              rw [← hpf, hg] at hs
              injection hs with h2
              rw [← h2] at hm
              exact absurd hm hcm
            · exact (memSet_mDel_ne hpf).mpr hmem
        · show mGet (comps.foldl mDel st.index) "" = none
          rw [mGet_foldl_mDel]
          by_cases hcm : "" ∈ comps
          · rw [if_pos hcm]
          · rw [if_neg hcm]
            exact hN

theorem updStep_pres_inv (fs : FS) (now : Nat) (st : EngineState) (cp : String)
    (hInv : EngineInv st) : EngineInv (updStep fs now st cp) := by
  unfold updStep
  cases hg : mGet st.index cp with
  | none => exact hInv
  | some ci =>
      dsimp only
      have hcp : cp ≠ "" := by
        intro he
        rw [he, hInv.2.2] at hg
        exact Option.noConfusion hg
      exact indexComponent_pres_inv fs now st cp (mKeys ci.cssFiles) hcp hInv

theorem updStep_pres_fwd (fs : FS) (now : Nat) (st : EngineState) (cp : String)
    (hF : Forward st) (hN : NoEmptyKey st) :
    Forward (updStep fs now st cp) ∧ NoEmptyKey (updStep fs now st cp) := by
  unfold updStep
  cases mGet st.index cp with
  | none => exact ⟨hF, hN⟩
  | some ci => exact indexComponent_pres_fwd fs now st cp (mKeys ci.cssFiles) hF hN

theorem updFold_pres_inv (fs : FS) (now : Nat) :
    ∀ (comps : List String) (st : EngineState),
      EngineInv st → EngineInv (comps.foldl (updStep fs now) st)
  | [], _, h => h
  | cp :: rest, st, h => by
      rw [List.foldl_cons]
      exact updFold_pres_inv fs now rest _ (updStep_pres_inv fs now st cp h)

theorem updFold_pres_fwd (fs : FS) (now : Nat) :
    ∀ (comps : List String) (st : EngineState),
      Forward st → NoEmptyKey st →
      Forward (comps.foldl (updStep fs now) st)
      ∧ NoEmptyKey (comps.foldl (updStep fs now) st)
  | [], _, hF, hN => ⟨hF, hN⟩
  | cp :: rest, st, hF, hN => by
      rw [List.foldl_cons]
      obtain ⟨h1, h2⟩ := updStep_pres_fwd fs now st cp hF hN
      exact updFold_pres_fwd fs now rest _ h1 h2

theorem updateCSSFile_pres_inv (fs : FS) (now : Nat) (st : EngineState) (f : String)
    (hInv : EngineInv st) : EngineInv (updateCSSFile fs now st f) := by
  unfold updateCSSFile
  dsimp only
  cases mGet st.cssFileToComponents f with
  | none => exact hInv
  | some comps =>
      dsimp only
      by_cases hz : comps = []
      · rw [if_pos hz]
        exact hInv
      · rw [if_neg hz]
        exact updFold_pres_inv fs now comps _ hInv

theorem updateCSSFile_pres_fwd (fs : FS) (now : Nat) (st : EngineState) (f : String)
    (hF : Forward st) (hN : NoEmptyKey st) :
    Forward (updateCSSFile fs now st f) ∧ NoEmptyKey (updateCSSFile fs now st f) := by
  unfold updateCSSFile
  dsimp only
  cases mGet st.cssFileToComponents f with
  | none => exact ⟨hF, hN⟩
  | some comps =>
      dsimp only
      by_cases hz : comps = []
      · rw [if_pos hz]
        exact ⟨hF, hN⟩
      · rw [if_neg hz]
        exact updFold_pres_fwd fs now comps _ hF hN

theorem runOp_pres_inv (st : EngineState) (e : FS × Nat × EngineOp)
    (hsafe : opSafe e.2.2 = true) (hInv : EngineInv st) : EngineInv (runOp st e) := by
  obtain ⟨fs, now, op⟩ := e
  cases op with
  | idx cp ps =>
      have hcp : cp ≠ "" := by simpa [opSafe] using hsafe
      exact indexComponent_pres_inv fs now st cp ps hcp hInv
  | upd f => exact updateCSSFile_pres_inv fs now st f hInv
  | rem f => exact Bool.noConfusion hsafe
  | chg cp => exact handleComponentChange_pres_inv st cp hInv

theorem runOp_pres_fwd (st : EngineState) (e : FS × Nat × EngineOp)
    (hF : Forward st) (hN : NoEmptyKey st) :
    Forward (runOp st e) ∧ NoEmptyKey (runOp st e) := by
  obtain ⟨fs, now, op⟩ := e
  cases op with
  | idx cp ps => exact indexComponent_pres_fwd fs now st cp ps hF hN
  | upd f => exact updateCSSFile_pres_fwd fs now st f hF hN
  | rem f => exact removeCSSFile_pres_fwd st f hF hN
  | chg cp => exact handleComponentChange_pres_fwd st cp hF hN

theorem runTrace_pres_inv : ∀ (tr : List (FS × Nat × EngineOp)) (st : EngineState),
    (∀ e ∈ tr, opSafe e.2.2 = true) → EngineInv st → EngineInv (runTrace tr st)
  | [], _, _, h => h
  | e :: rest, st, hsafe, h => by
      show EngineInv (runTrace rest (runOp st e))
      exact runTrace_pres_inv rest _ (fun x hx => hsafe x (List.mem_cons_of_mem e hx))
        (runOp_pres_inv st e (hsafe e (List.mem_cons_self e rest)) h)

theorem runTrace_pres_fwd : ∀ (tr : List (FS × Nat × EngineOp)) (st : EngineState),
    Forward st → NoEmptyKey st → Forward (runTrace tr st) ∧ NoEmptyKey (runTrace tr st)
  | [], _, hF, hN => ⟨hF, hN⟩
  | e :: rest, st, hF, hN => by
      show Forward (runTrace rest (runOp st e)) ∧ NoEmptyKey (runTrace rest (runOp st e))
      obtain ⟨h1, h2⟩ := runOp_pres_fwd st e hF hN
      exact runTrace_pres_fwd rest _ h1 h2

theorem emptyEngine_inv : EngineInv emptyEngine := by
  refine ⟨?_, ?_, rfl⟩
  · intro cp ci hci p hp
    exact Option.noConfusion hci
  · intro p s hs cp hm
    exact Option.noConfusion hs

/-- C1 counterexample: indexing a component over two stylesheets and then
calling `removeCSSFile` on one of them leaves the OTHER stylesheet's
reverse-map set still naming the deleted component, so bidirectional
consistency (here its backward direction) does not survive `removeCSSFile`:
the claimed invariant fails after this two-call sequence. -/
theorem claim_C1_counterexample : ¬ (Forward stC1 ∧ Backward stC1) := by
  rintro ⟨-, hB⟩
  obtain ⟨ci, hci, -⟩ := hB "/b.css" ["/C.tsx"] rfl "/C.tsx" (List.mem_cons_self _ _)
  have h0 : mGet stC1.index "/C.tsx" = none := rfl
  rw [h0] at hci
  exact Option.noConfusion hci

/-- C1 (amended): bidirectional reverse-map consistency (together with the
empty path never being indexed) IS an invariant of every trace from the
empty engine that avoids `removeCSSFile` and passes non-empty component
paths to `indexComponent`; for unrestricted traces (any arguments, all four
operations) only the forward direction survives: every indexed component's
CSS files still list it in their reverse-map sets. -/
theorem claim_C1_amended (tr : List (FS × Nat × EngineOp)) :
    ((∀ e ∈ tr, opSafe e.2.2 = true) → EngineInv (runTrace tr emptyEngine))
    ∧ Forward (runTrace tr emptyEngine) ∧ NoEmptyKey (runTrace tr emptyEngine) :=
  ⟨fun hsafe => runTrace_pres_inv tr emptyEngine hsafe emptyEngine_inv,
   (runTrace_pres_fwd tr emptyEngine emptyEngine_inv.1 emptyEngine_inv.2.2).1,
   (runTrace_pres_fwd tr emptyEngine emptyEngine_inv.1 emptyEngine_inv.2.2).2⟩

/-- C1 witness: a safe index/update/change trace keeps the full invariant,
and the rem-containing trace of the counterexample still keeps the forward
direction. -/
theorem claim_C1_amended_witness :
    EngineInv (runTrace [(fsTwo, 0, .idx "/C.tsx" ["/a.css", "/b.css"]),
        (fsTwo, 5, .upd "/a.css"), (fsTwo, 5, .chg "/C.tsx")] emptyEngine)
    ∧ Forward stC1 ∧ NoEmptyKey stC1 :=
  ⟨(claim_C1_amended [(fsTwo, 0, .idx "/C.tsx" ["/a.css", "/b.css"]),
      (fsTwo, 5, .upd "/a.css"), (fsTwo, 5, .chg "/C.tsx")]).1 (by decide),
   (claim_C1_amended [(fsTwo, 0, .idx "/C.tsx" ["/a.css", "/b.css"]),
      (fsTwo, 0, .rem "/a.css")]).2⟩

/-! ## Comment stripping and line numbers (for C10) -/

theorem hasCloseCmt_seam (post : List Char) :
    ∀ mid : List Char, hasCloseCmt (mid ++ '*' :: '/' :: post) = true
  | [] => by
      rw [List.nil_append, hasCloseCmt, if_pos ⟨rfl, rfl⟩]
  | [c] => by
      rw [List.cons_append, List.nil_append, hasCloseCmt]
      split
      · rfl
      · exact hasCloseCmt_seam post []
  | c :: d :: mid2 => by
      rw [List.cons_append, List.cons_append, hasCloseCmt]
      split
      · rfl
      · exact hasCloseCmt_seam post (d :: mid2)

theorem sbcAux_true_seam (post : List Char) :
    ∀ mid : List Char, '/' ∉ mid →
      sbcAux true (mid ++ '*' :: '/' :: post) = sbcAux false post
  | [], _ => by
      rw [List.nil_append, sbcAux, if_pos ⟨rfl, rfl⟩]
  | [c], _ => by
      rw [List.cons_append, List.nil_append, sbcAux,
        if_neg (fun hc => absurd hc.2 (by decide))]
      exact sbcAux_true_seam post [] (List.not_mem_nil '/')
  | c :: d :: mid2, h => by
      rw [List.cons_append, List.cons_append, sbcAux,
        if_neg (fun hc => h (by
          rw [← hc.2]
          exact List.mem_cons_of_mem c (List.mem_cons_self d mid2)))]
      exact sbcAux_true_seam post (d :: mid2) (fun hm => h (List.mem_cons_of_mem c hm))

theorem sbc_seam (mid post : List Char) (hmid : '/' ∉ mid) (hpost : '/' ∉ post) :
    ∀ pre : List Char, '/' ∉ pre →
      sbcAux false (pre ++ '/' :: '*' :: (mid ++ '*' :: '/' :: post)) = pre ++ post
  | [], _ => by
      rw [List.nil_append, List.nil_append, sbcAux, if_pos ⟨rfl, rfl⟩,
        if_pos (hasCloseCmt_seam post mid), sbcAux_true_seam post mid hmid,
        sbcAux_no_slash post hpost]
  | [c], hpre => by
      simp only [List.cons_append, List.nil_append]
      rw [sbcAux, if_neg (fun hc => hpre (by
        rw [← hc.1]
        exact List.mem_cons_self c []))]
      have ih := sbc_seam mid post hmid hpost [] (List.not_mem_nil '/')
      simp only [List.nil_append] at ih
      rw [ih]
  | c :: d :: pre2, hpre => by
      simp only [List.cons_append]
      rw [sbcAux, if_neg (fun hc => hpre (by
        rw [← hc.1]
        exact List.mem_cons_self c _))]
      have ih := sbc_seam mid post hmid hpost (d :: pre2)
        (fun hm => hpre (List.mem_cons_of_mem c hm))
      simp only [List.cons_append] at ih
      rw [ih]

theorem removeComments_block (pre mid post : List Char)
    (hpre : '/' ∉ pre) (hmid : '/' ∉ mid) (hpost : '/' ∉ post) :
    removeComments (pre ++ '/' :: '*' :: (mid ++ '*' :: '/' :: post)) = pre ++ post := by
  unfold removeComments sbc rlcAll
  rw [sbc_seam mid post hmid hpost pre hpre]
  exact rlcAux_no_slash (pre ++ post) (fun hm => by
    rcases List.mem_append.mp hm with h | h
    · exact hpre h
    · exact hpost h)

theorem countNl_append : ∀ l1 l2 : List Char, countNl (l1 ++ l2) = countNl l1 + countNl l2
  | [], l2 => by simp [countNl]
  | c :: t, l2 => by
      rw [List.cons_append, countNl, countNl, countNl_append t l2]
      omega

theorem splitOnAux_head (sep : Char) :
    ∀ (l cur : List Char), ∃ ln rest,
      splitOnAux sep l cur = ln :: rest ∧ cur.length ≤ ln.length
  | [], cur => ⟨cur.reverse, [], rfl, by simp⟩
  | c :: t, cur => by
      rw [splitOnAux]
      by_cases h : c = sep
      · rw [if_pos h]
        exact ⟨cur.reverse, splitOnAux sep t [], rfl, by simp⟩
      · rw [if_neg h]
        obtain ⟨ln, rest, heq, hlen⟩ := splitOnAux_head sep t (c :: cur)
        refine ⟨ln, rest, heq, ?_⟩
        simp only [List.length_cons] at hlen
        omega

theorem lnAux_split :
    ∀ (l cur : List Char) (ms cc i : Nat), ms ≤ l.length →
      lnAux (cc + cur.length + ms) (splitOnAux '\n' l cur) cc i
        = i + 1 + countNl (l.take ms)
  | [], cur, ms, cc, i, hms => by
      have h0 : ms = 0 := Nat.le_zero.mp (by simpa using hms)
      subst h0
      rw [splitOnAux, lnAux, if_pos (by simp)]
      simp [countNl]
  | c :: t, cur, ms, cc, i, hms => by
      rw [splitOnAux]
      by_cases hc : c = '\n'
      · rw [if_pos hc]
        cases ms with
        | zero =>
            rw [lnAux, if_pos (by simp)]
            simp [countNl]
        | succ ms2 =>
            rw [lnAux, if_neg (by simp)]
            have ih := lnAux_split t [] ms2 (cc + cur.length + 1) (i + 1)
              (by simp only [List.length_cons] at hms; omega)
            simp only [List.length_nil, List.length_reverse, Nat.add_zero] at ih ⊢
            have e : cc + cur.length + (ms2 + 1) = cc + cur.length + 1 + ms2 := by omega
            rw [e, ih, List.take_succ_cons, hc]
            simp only [countNl]
            simp only [if_true]
            omega
      · rw [if_neg hc]
        cases ms with
        | zero =>
            obtain ⟨ln, rest, heq, hlen⟩ := splitOnAux_head '\n' t (c :: cur)
            rw [heq, lnAux, if_pos (by
              simp only [List.length_cons] at hlen
              omega)]
            simp [countNl]
        | succ ms2 =>
            have ih := lnAux_split t (c :: cur) ms2 cc i
              (by simp only [List.length_cons] at hms; omega)
            have e : cc + cur.length + (ms2 + 1) = cc + (c :: cur).length + ms2 := by
              simp only [List.length_cons]
              omega
            rw [e, ih, List.take_succ_cons]
            simp only [countNl]
            rw [if_neg hc]
            omega

theorem lineNumberOfIndex_eq (content : List Char) (ms : Nat) (h : ms ≤ content.length) :
    lineNumberOfIndex content ms = 1 + countNl (content.take ms) := by
  unfold lineNumberOfIndex splitOn
  have hx := lnAux_split content [] ms 0 0 h
  simp only [List.length_nil, Nat.add_zero, Nat.zero_add] at hx
  exact hx

theorem scanClassesF_empty (fuel i : Nat) : scanClassesF fuel [] i = [] := by
  cases fuel <;> rfl

theorem scanClassesF_idx_le :
    ∀ (fuel : Nat) (l : List Char) (i : Nat) (x : String × Nat × Nat),
      x ∈ scanClassesF fuel l i → x.2.1 ≤ i + l.length
  | 0, l, i, x => fun h => by simp [scanClassesF] at h
  | fuel + 1, [], i, x => fun h => by simp [scanClassesF] at h
  | fuel + 1, c :: t, i, x => fun h => by
      rw [scanClassesF] at h
      cases hm : matchClassAt (c :: t) with
      | none =>
          rw [hm] at h
          dsimp only at h
          have hb := scanClassesF_idx_le fuel t (i + 1) x h
          simp only [List.length_cons]
          omega
      | some nl =>
          obtain ⟨nm, len⟩ := nl
          rw [hm] at h
          dsimp only at h
          rcases List.mem_cons.mp h with h1 | h1
          · rw [h1]
            simp
          · by_cases hlen : len - 1 ≤ t.length
            · have hb := scanClassesF_idx_le fuel (t.drop (len - 1)) (i + len) x h1
              have hd : (t.drop (len - 1)).length = t.length - (len - 1) :=
                List.length_drop _ _
              have hp : 1 ≤ len := matchClassAt_len_pos hm
              simp only [List.length_cons]
              omega
            · rw [List.drop_eq_nil_of_le (by omega), scanClassesF_empty] at h1
              exact absurd h1 (List.not_mem_nil x)

theorem countNl_take_append (l1 l2 : List Char) (n : Nat) (h : l1.length ≤ n) :
    countNl ((l1 ++ l2).take n) = countNl l1 + countNl (l2.take (n - l1.length)) := by
  rw [List.take_append_eq_append_take, List.take_of_length_le h, countNl_append]

theorem countNl_take_cons_ne (c : Char) (l : List Char) (n : Nat) (hc : ¬ c = '\n') :
    countNl ((c :: l).take (n + 1)) = countNl (l.take n) := by
  rw [List.take_succ_cons, countNl, if_neg hc]
  omega

/-- C10: class line numbers are computed against the comment-stripped text.
When a block comment whose body contains at least one newline precedes the
selectors (and slashes occur nowhere else), every match found at or beyond
the comment's position carries a `lineNumber` strictly smaller than the
1-based line of the same selector in the ORIGINAL content, whose index is
shifted by the comment body plus the four delimiter characters. -/
theorem claim_C10 (pre mid post : List Char)
    (hpre : '/' ∉ pre) (hmid : '/' ∉ mid) (hpost : '/' ∉ post)
    (hnl : 1 ≤ countNl mid) :
    ∀ m ∈ findClassMatches
        (removeComments (pre ++ '/' :: '*' :: (mid ++ '*' :: '/' :: post))),
      pre.length ≤ m.matchIndex →
      m.lineNumber <
        1 + countNl ((pre ++ '/' :: '*' :: (mid ++ '*' :: '/' :: post)).take
          (m.matchIndex + 4 + mid.length)) := by
  intro m hm hge
  rw [removeComments_block pre mid post hpre hmid hpost] at hm
  unfold findClassMatches at hm
  obtain ⟨x, hx, hfx⟩ := List.mem_filterMap.mp hm
  cases hd : extractClassDefinition (pre ++ post) x.2.1 (x.2.1 + x.2.2 - 1) with
  | none =>
      rw [hd] at hfx
      exact Option.noConfusion hfx
  | some d =>
      rw [hd] at hfx
      dsimp only at hfx
      by_cases hz : d = []
      · rw [if_pos hz] at hfx
        exact Option.noConfusion hfx
      · rw [if_neg hz] at hfx
        injection hfx with h2
        have hln : m.lineNumber = lineNumberOfIndex (pre ++ post) x.2.1 := by
          rw [← h2]
        have hmi : m.matchIndex = x.2.1 := by
          rw [← h2]
        have hbound : x.2.1 ≤ (pre ++ post).length := by
          have hb := scanClassesF_idx_le (pre ++ post).length (pre ++ post) 0 x hx
          omega
        obtain ⟨j, hj⟩ := Nat.exists_eq_add_of_le (hmi ▸ hge)
        have e0 : pre.length + j - pre.length = j := by omega
        have hL : m.lineNumber = 1 + (countNl pre + countNl (post.take j)) := by
          rw [hln, lineNumberOfIndex_eq (pre ++ post) x.2.1 hbound, hj,
            countNl_take_append pre post (pre.length + j) (by omega), e0]
        have hR : countNl ((pre ++ '/' :: '*' :: (mid ++ '*' :: '/' :: post)).take
            (m.matchIndex + 4 + mid.length))
            = countNl pre + (countNl mid + countNl (post.take j)) := by
          rw [hmi, hj,
            countNl_take_append pre ('/' :: '*' :: (mid ++ '*' :: '/' :: post))
              (pre.length + j + 4 + mid.length) (by omega)]
          have e1 : pre.length + j + 4 + mid.length - pre.length
              = (j + 3 + mid.length) + 1 := by omega
          rw [e1, countNl_take_cons_ne '/' ('*' :: (mid ++ '*' :: '/' :: post))
            (j + 3 + mid.length) (by decide)]
          have e2 : j + 3 + mid.length = (j + 2 + mid.length) + 1 := by omega
          rw [e2, countNl_take_cons_ne '*' (mid ++ '*' :: '/' :: post)
            (j + 2 + mid.length) (by decide)]
          rw [countNl_take_append mid ('*' :: '/' :: post) (j + 2 + mid.length) (by omega)]
          have e3 : j + 2 + mid.length - mid.length = (j + 1) + 1 := by omega
          rw [e3, countNl_take_cons_ne '*' ('/' :: post) (j + 1) (by decide)]
          rw [countNl_take_cons_ne '/' post j (by decide)]
        rw [hL, hR]
        omega

/-- C10 witness: a two-line block comment followed by a one-class rule; the
match is reported on line 1 of the stripped text while the selector sits on
line 2 of the original content. -/
theorem claim_C10_witness :
    mC10 ∈ findClassMatches (removeComments contentC10)
    ∧ mC10.lineNumber <
        1 + countNl (contentC10.take (mC10.matchIndex + 4 + midC10.length)) :=
  ⟨by decide,
   claim_C10 preC10 midC10 postC10 (by decide) (by decide) (by decide) (by decide)
     mC10 (by decide) (by decide)⟩
